import Mathlib

/-!
# CSYE-7105 parallel micro-benchmarks: a verification development

Shallow embedding of the kernels of `src/openmp-mpi/*.c` and `src/hw1/csye7105_ex2.c`.

* C `int` is a mathematical integer reduced to 32-bit two's complement after every
  arithmetic operation (`wrap32`); `/` is C99 truncating division.
* C `double` is the type `F64` below: IEEE-754 binary64 with round-to-nearest-even, every
  operation rounded on its own (no fused multiply-add, no extended precision).
* A `for (int i = lo; i < hi; i++)` loop whose body does not assign `i` is `cfor lo hi body`.
* `double **` matrices are maps from (row, column) to `F64`; the three matrices
  `A`, `B`, `C` of a kernel are three distinct objects of the memory `MatMem`.
* MPI calls are not executed. Of the gather loop of `mpi_matrix_mult.c` the rows used as
  buffers and the places where the root stores the received blocks are modelled
  (`gather_row`, `gather_store_index`), against the size of a row (`row_doubles`).
-/

namespace CSYE7105

/-! ## 32-bit signed `int` -/

/-- Smallest value of a 32-bit `int`. -/
def INT_MIN : Int := -2147483648

/-- Largest value of a 32-bit `int`. -/
def INT_MAX : Int := 2147483647

/-- Two's-complement reduction of an integer to the range of a 32-bit `int`. -/
def wrap32 (x : Int) : Int := (x + 2147483648) % 4294967296 - 2147483648

/-- C `a + b` on `int`. -/
def int_add (a b : Int) : Int := wrap32 (a + b)

/-- C `a * b` on `int`. -/
def int_mul (a b : Int) : Int := wrap32 (a * b)

/-- C `a / b` on `int` (truncation toward zero). -/
def int_div (a b : Int) : Int := wrap32 (Int.tdiv a b)

/-- C `a % b` on `int` (sign of the dividend). -/
def int_mod (a b : Int) : Int := wrap32 (Int.tmod a b)

/-- The value fits a 32-bit `int`. -/
def isInt32 (x : Int) : Prop := INT_MIN ≤ x ∧ x ≤ INT_MAX

instance (x : Int) : Decidable (isInt32 x) := by unfold isInt32; infer_instance

/-! ## Loops -/

/-- Run `body i`, `body (i+1)`, ... for the given number of iterations. -/
def forLoop {σ : Type} (body : Int → σ → σ) : Nat → Int → σ → σ
  | 0, _, s => s
  | k + 1, i, s => forLoop body k (i + 1) (body i s)

/-- The loop `for (int i = lo; i < hi; i++) body`: it runs `hi - lo` times when `lo < hi`
and not at all otherwise. -/
def cfor {σ : Type} (lo hi : Int) (body : Int → σ → σ) (s : σ) : σ :=
  forLoop body (hi - lo).toNat lo s

/-- Index `i` is visited by `for (int i = lo; i < hi; i++)`. -/
def visits (lo hi i : Int) : Prop := lo ≤ i ∧ i < hi

instance (lo hi i : Int) : Decidable (visits lo hi i) := by unfold visits; infer_instance

/-! ## Row-block and chunk bounds -/

namespace mpi_matrix_mult

/-- `#define N 1000` -/
def N : Int := 1000

/-- `int local_n = n / size;` -/
def local_n (n size : Int) : Int := int_div n size

/-- `int start_row = rank * local_n;` -/
def start_row (n rank size : Int) : Int := int_mul rank (local_n n size)

/-- `int end_row = start_row + local_n;` -/
def end_row (n rank size : Int) : Int := int_add (start_row n rank size) (local_n n size)

/-- `matrix[i] = (double*)malloc(n * sizeof(double));` in `allocate_matrix`: the number of
`double`s that a row of a matrix holds. -/
def row_doubles (n : Int) : Int := n

/-- The gather loop of `main`, `int local_n = N / size; for (int i = 0; i < local_n; i++)`:
the row `rank * local_n + i` of `C` that call `i` passes to `MPI_Gather` both as send
buffer and as receive buffer. -/
def gather_row (rank size i : Int) : Int := int_add (int_mul rank (int_div N size)) i

/-- `MPI_Gather(sendbuf, sendcount, MPI_DOUBLE, recvbuf, recvcount, MPI_DOUBLE, 0, comm)`
at the root: the blocks arrive in rank order, `recvcount` elements each, so element `k` of
the block sent by rank `r` is stored at `recvbuf[r * recvcount + k]`. -/
def gather_store_index (recvcount r k : Int) : Int := r * recvcount + k

/-- All stores of one call `MPI_Gather(C[..], N, MPI_DOUBLE, C[..], N, MPI_DOUBLE, 0, ...)`
at the root, for `size` processes, fall inside the receive buffer, a row of `C`; a store
outside it has undefined behaviour. -/
def gather_in_bounds (size : Int) : Prop :=
  ∀ r k, 0 ≤ r → r < size → 0 ≤ k → k < N → gather_store_index N r k < row_doubles N

end mpi_matrix_mult

namespace mpi_vector_add

/-- `#define N 1000000` -/
def N : Int := 1000000

/-- `int local_n = n / size;` -/
def local_n (n size : Int) : Int := int_div n size

/-- `int start = rank * local_n;` -/
def start (n rank size : Int) : Int := int_mul rank (local_n n size)

/-- `int end = start + local_n;` -/
def end_ (n rank size : Int) : Int := int_add (start n rank size) (local_n n size)

end mpi_vector_add

namespace hw1

/-- `#define N 1000` -/
def N : Int := 1000

/-- `#define N_THREADS 4` -/
def N_THREADS : Int := 4

/-- `chunk = N/N_THREADS;` with the two macros as parameters. -/
def chunk (N N_THREADS : Int) : Int := int_div N N_THREADS

/-- Loop initialiser `i = tid * chunk`. -/
def lo (N N_THREADS tid : Int) : Int := int_mul tid (chunk N N_THREADS)

/-- Loop bound `(tid+1) * chunk`. -/
def hi (N N_THREADS tid : Int) : Int := int_mul (int_add tid 1) (chunk N N_THREADS)

end hw1

namespace pi

/-- `#define NUM_STEPS 100000000` -/
def NUM_STEPS : Int := 100000000

/-- `int start = thread_id * NUM_STEPS / num_threads;` (also `rank * NUM_STEPS / size`). -/
def start (thread_id num_threads : Int) : Int :=
  int_div (int_mul thread_id NUM_STEPS) num_threads

/-- `int end = (thread_id + 1) * NUM_STEPS / num_threads;` -/
def end_ (thread_id num_threads : Int) : Int :=
  int_div (int_mul (int_add thread_id 1) NUM_STEPS) num_threads

end pi

/-- The ranges `[lo r, hi r)` of the ranks `r ∈ [0, P)` are pairwise disjoint and their
union is exactly `[0, M)`. -/
def PartitionOf (lo hi : Int → Int) (P M : Int) : Prop :=
  (∀ r r' i, 0 ≤ r → r < P → 0 ≤ r' → r' < P →
      visits (lo r) (hi r) i → visits (lo r') (hi r') i → r = r') ∧
  (∀ i, (0 ≤ i ∧ i < M) ↔ ∃ r, 0 ≤ r ∧ r < P ∧ visits (lo r) (hi r) i)

/-! ## IEEE-754 binary64 (`double`) -/

/-- A `double`: NaN (payloads are not distinguished), an infinity with its sign bit,
negative zero, or a finite value given by its rational value (`fin 0` is `+0.0`). The
operations below only produce `fin q` for `q` representable in binary64. -/
inductive F64 where
  | nan : F64
  | inf (neg : Bool) : F64
  | nzero : F64
  | fin (q : ℚ) : F64
deriving DecidableEq

namespace F64

/-- Largest finite `double`, `(2^53 - 1) * 2^971`. -/
def maxFinite : ℚ := (2 ^ 53 - 1) * 2 ^ (971 : Nat)

/-- Nearest integer to a non-negative rational, ties to the even neighbour. -/
def roundHalfEven (s : ℚ) : Int :=
  if s - ⌊s⌋ < 1 / 2 then ⌊s⌋
  else if 1 / 2 < s - ⌊s⌋ then ⌊s⌋ + 1
  else if ⌊s⌋ % 2 = 0 then ⌊s⌋ else ⌊s⌋ + 1

/-- Exponent of the unit in the last place of the binade of `a > 0`: 53 significant
bits, never below the subnormal exponent `-1074`. -/
def ulpExp (a : ℚ) : Int := max (Int.log 2 a - 52) (-1074)

/-- Magnitude of the correctly rounded value of a magnitude `a > 0`: the nearest multiple
of the unit in the last place, ties to the even significand. -/
def roundMag (a : ℚ) : ℚ := (roundHalfEven (a / 2 ^ ulpExp a) : ℚ) * 2 ^ ulpExp a

/-- Correctly rounded (round-to-nearest, ties-to-even) `double` of an exact rational
result; an exact zero is `+0.0`, a negative result that underflows is `-0.0`, a result
beyond the largest finite value is an infinity. -/
def round (q : ℚ) : F64 :=
  if q = 0 then fin 0
  else if maxFinite < roundMag |q| then inf (decide (q < 0))
  else if roundMag |q| = 0 then (if q < 0 then nzero else fin 0)
  else if q < 0 then fin (-roundMag |q|)
  else fin (roundMag |q|)

/-- Rational value of a finite `double` (0 for the others). -/
def val : F64 → ℚ
  | fin q => q
  | _ => 0

/-- Sign bit. -/
def signBit : F64 → Bool
  | nan => false
  | inf s => s
  | nzero => true
  | fin q => decide (q < 0)

/-- The value is `+0.0` or `-0.0`. -/
def isZero : F64 → Bool
  | nzero => true
  | fin q => decide (q = 0)
  | _ => false

/-- The value is neither NaN nor an infinity. -/
def isFinite : F64 → Bool
  | nzero => true
  | fin _ => true
  | _ => false

/-- C `x + y` on `double`. -/
def add : F64 → F64 → F64
  | nan, _ => nan
  | _, nan => nan
  | inf s, inf t => if s = t then inf s else nan
  | inf s, _ => inf s
  | _, inf t => inf t
  | nzero, nzero => nzero
  | nzero, fin b => fin b
  | fin a, nzero => fin a
  | fin a, fin b => round (a + b)

/-- C unary `-x` on `double`. -/
def neg : F64 → F64
  | nan => nan
  | inf s => inf (!s)
  | nzero => fin 0
  | fin q => if q = 0 then nzero else fin (-q)

/-- C `x - y` on `double`. -/
def sub (x y : F64) : F64 := add x (neg y)

/-- C `x * y` on `double`. -/
def mul : F64 → F64 → F64
  | nan, _ => nan
  | _, nan => nan
  | inf s, y => if isZero y then nan else inf (xor s (signBit y))
  | x, inf t => if isZero x then nan else inf (xor (signBit x) t)
  | x, y =>
    if isZero x || isZero y then (if xor (signBit x) (signBit y) then nzero else fin 0)
    else round (val x * val y)

/-- Conversion `(double) z` of an `int`. -/
def ofInt (z : Int) : F64 := round (z : ℚ)

/-- Integral part of a rational (rounding toward zero). -/
def trunc (q : ℚ) : Int := if 0 ≤ q then ⌊q⌋ else ⌈q⌉

/-- Conversion of a `double` to `int`: the fractional part is discarded; the behaviour
is undefined (`none`) when the integral part does not fit. -/
def toInt32 : F64 → Option Int
  | nan => none
  | inf _ => none
  | nzero => some 0
  | fin q => if isInt32 (trunc q) then some (trunc q) else none

/-- C `x > y` on `double` (false when either is NaN). -/
def gt : F64 → F64 → Bool
  | nan, _ => false
  | _, nan => false
  | inf s, inf t => !s && t
  | inf s, _ => !s
  | _, inf t => t
  | x, y => decide (val y < val x)

/-- C `x != y` on `double` (true when either is NaN; the two zeros are equal). -/
def ne : F64 → F64 → Bool
  | nan, _ => true
  | _, nan => true
  | inf s, inf t => s != t
  | inf _, _ => true
  | _, inf _ => true
  | x, y => decide (val x ≠ val y)

/-- The `fabs` of `<math.h>`: clears the sign bit. -/
def fabs : F64 → F64
  | nan => nan
  | inf _ => inf false
  | nzero => fin 0
  | fin q => fin |q|

end F64

/-- The `int abs(int)` of `<stdlib.h>`; undefined (`none`) on `INT_MIN`. -/
def int_abs (x : Int) : Option Int := if x = INT_MIN then none else some |x|

/-! ## Matrices and vectors in memory -/

/-- A `double **` matrix: the entry at each (row, column). -/
abbrev Mat := Int → Int → F64

/-- The store `M[i][j] = v`. -/
def Mat.set (M : Mat) (i j : Int) (v : F64) : Mat :=
  fun i' j' => if i' = i ∧ j' = j then v else M i' j'

/-- A `double *` vector: the element at each index. -/
abbrev Vec := Int → F64

/-- The store `v[i] = x`. -/
def Vec.set (v : Vec) (i : Int) (x : F64) : Vec :=
  fun i' => if i' = i then x else v i'

/-- The three matrices a matrix kernel works on. -/
structure MatMem where
  A : Mat
  B : Mat
  C : Mat

/-- The three vectors a vector kernel works on. -/
structure VecMem where
  a : Vec
  b : Vec
  c : Vec

/-! ## Matrix multiplication (`mpi_matrix_mult.c`, `openmp_matrix_mult.c`) -/

/-- `C[i][j] += A[i][k] * B[k][j];` -/
def mm_step (i j k : Int) (s : MatMem) : MatMem :=
  { s with C := s.C.set i j (F64.add (s.C i j) (F64.mul (s.A i k) (s.B k j))) }

/-- Body of the `j` loop: `C[i][j] = 0.0; for (int k = 0; k < n; k++) C[i][j] += ...`. -/
def mm_cell (n i j : Int) (s : MatMem) : MatMem :=
  cfor 0 n (mm_step i j) { s with C := s.C.set i j (F64.fin 0) }

/-- Body of the `i` loop: `for (int j = 0; j < n; j++) ...`. -/
def mm_row (n i : Int) (s : MatMem) : MatMem :=
  cfor 0 n (mm_cell n i) s

/-- `void matrix_mult_mpi(double **A, double **B, double **C, int n, int rank, int size)`. -/
def matrix_mult_mpi (s : MatMem) (n rank size : Int) : MatMem :=
  cfor (mpi_matrix_mult.start_row n rank size) (mpi_matrix_mult.end_row n rank size) (mm_row n) s

/-- `void matrix_mult_serial(double **A, double **B, double **C, int n)`. -/
def matrix_mult_serial (s : MatMem) (n : Int) : MatMem :=
  cfor 0 n (mm_row n) s

/-- `void initialize_matrix(double **matrix, int n)`: `matrix[i][j] = (double)(i + j);`. -/
def initialize_matrix (M : Mat) (n : Int) : Mat :=
  cfor 0 n (fun i M1 => cfor 0 n (fun j M2 => M2.set i j (F64.ofInt (int_add i j))) M1) M

/-- The value of `expected` after `expected = 0.0; for (k = 0; k < N; k++)
expected += A[i][k] * B[k][j];` in the verifier. -/
def expected (s : MatMem) (N i j : Int) : F64 :=
  cfor 0 N (fun k e => F64.add e (F64.mul (s.A i k) (s.B k j))) (F64.fin 0)

/-- The literal `1e-6`. -/
def tol : F64 := F64.round (1 / 1000000)

/-- The test `abs(C[i][j] - expected) > 1e-6` as C evaluates it: only `<stdlib.h>` is
included, so `abs` is `int abs(int)`; the `double` argument is converted to `int` and the
`int` result back to `double` for the comparison. -/
def mismatch (c e : F64) : Option Bool :=
  match F64.toInt32 (F64.sub c e) with
  | none => none
  | some d =>
    match int_abs d with
    | none => none
    | some a => some (F64.gt (F64.ofInt a) tol)

/-- The `j` loop of the verifier from column `j` with the given number of iterations left;
the result is the value of `correct` when the loop is left (by exhaustion or `break`). -/
def verify_cols (s : MatMem) (N i : Int) : Nat → Int → Option Bool
  | 0, _ => some true
  | f + 1, j =>
    match mismatch (s.C i j) (expected s N i j) with
    | none => none
    | some true => some false
    | some false => verify_cols s N i f (j + 1)

/-- The `i` loop of the verifier, `for (int i = 0; i < 10 && correct; i++)`. -/
def verify_rows (s : MatMem) (N : Int) : Nat → Int → Option Bool
  | 0, _ => some true
  | f + 1, i =>
    match verify_cols s N i 10 0 with
    | none => none
    | some false => some false
    | some true => verify_rows s N f (i + 1)

/-- The verifier of `main`: the final value of `correct` (`some true` prints "Yes",
`some false` prints "No", `none` is undefined behaviour); the macro `N` is a parameter. -/
def verify (s : MatMem) (N : Int) : Option Bool := verify_rows s N 10 0

/-- The accumulation `(((0 + A[i][0]*B[0][j]) + A[i][1]*B[1][j]) + ... + A[i][n-1]*B[n-1][j])`
written as a left fold over `k = 0, 1, ..., n-1`. -/
def dotLeftToRight (A B : Mat) (n i j : Int) : F64 :=
  List.foldl (fun (acc : F64) (k : Nat) => F64.add acc (F64.mul (A i (k : Int)) (B (k : Int) j)))
    (F64.fin 0) (List.range n.toNat)

/-- The all-zero matrix. -/
def zeroMat : Mat := fun _ _ => F64.fin 0

/-- A verifier input: `A` and `B` all zero, `C` all zero except `C[0][0] = 0.5`. -/
def halfOffMem : MatMem := ⟨zeroMat, zeroMat, zeroMat.set 0 0 (F64.fin (1 / 2))⟩

/-! ## Vector addition (`mpi_vector_add.c`, `openmp_vector_add.c`) -/

/-- `c[i] = a[i] + b[i];` -/
def vec_step (i : Int) (s : VecMem) : VecMem :=
  { s with c := s.c.set i (F64.add (s.a i) (s.b i)) }

/-- `void vector_add_serial(double *a, double *b, double *c, int n)`. -/
def vector_add_serial (s : VecMem) (n : Int) : VecMem :=
  cfor 0 n vec_step s

/-- `void vector_add_mpi(double *a, double *b, double *c, int n, int rank, int size)`. -/
def vector_add_mpi (s : VecMem) (n rank size : Int) : VecMem :=
  cfor (mpi_vector_add.start n rank size) (mpi_vector_add.end_ n rank size) vec_step s

/-- Running `vector_add_mpi` for the ranks `0, 1, ..., size-1` in turn on the same memory. -/
def vector_add_mpi_all (s : VecMem) (n size : Int) : VecMem :=
  cfor 0 size (fun rank s1 => vector_add_mpi s1 n rank size) s

/-- The check loop of `main` from index `i` with the given number of iterations left:
`if (c[i] != a[i] + b[i]) { correct = 0; break; }`; the result is the final `correct`. -/
def vec_check (s : VecMem) : Nat → Int → Bool
  | 0, _ => true
  | f + 1, i =>
    if F64.ne (s.c i) (F64.add (s.a i) (s.b i)) then false else vec_check s f (i + 1)

/-- The full-array verifier of `main`, `for (int i = 0; i < N; i++)`. -/
def vec_verify (s : VecMem) (N : Int) : Bool := vec_check s N.toNat 0

/-- The initialisation loop of `main`: `a[i] = i; b[i] = i * 2;`. -/
def vec_init (s : VecMem) (N : Int) : VecMem :=
  cfor 0 N (fun i s1 =>
    { s1 with a := s1.a.set i (F64.ofInt i), b := s1.b.set i (F64.ofInt (int_mul i 2)) }) s

/-! ## Integer lemmas -/

theorem wrap32_eq {x : Int} (h : isInt32 x) : wrap32 x = x := by
  unfold isInt32 INT_MIN INT_MAX at h
  unfold wrap32
  omega

theorem tile_of_bounds (lo hi : Int → Int) (P L : Int) (hL : 0 ≤ L)
    (hlo : ∀ r, 0 ≤ r → r < P → lo r = r * L ∧ hi r = r * L + L) :
    PartitionOf lo hi P (P * L) := by
  constructor
  · intro r r' i hr0 hrP hr'0 hr'P hv hv'
    obtain ⟨e1, e2⟩ := hlo r hr0 hrP
    obtain ⟨e1', e2'⟩ := hlo r' hr'0 hr'P
    unfold visits at hv hv'
    rw [e1, e2] at hv
    rw [e1', e2'] at hv'
    by_contra hne
    rcases lt_or_gt_of_ne hne with h | h
    · have : (r + 1) * L ≤ r' * L := Int.mul_le_mul_of_nonneg_right (by omega) hL
      have h2 : (r + 1) * L = r * L + L := by ring
      omega
    · have : (r' + 1) * L ≤ r * L := Int.mul_le_mul_of_nonneg_right (by omega) hL
      have h2 : (r' + 1) * L = r' * L + L := by ring
      omega
  · intro i
    constructor
    · rintro ⟨hi0, hiM⟩
      have hLpos : 0 < L := by
        rcases eq_or_lt_of_le hL with h | h
        · rw [← h] at hiM; simp at hiM; omega
        · exact h
      have hr0 : 0 ≤ i / L := Int.ediv_nonneg hi0 hL
      have hrP : i / L < P := Int.ediv_lt_of_lt_mul hLpos hiM
      refine ⟨i / L, hr0, hrP, ?_⟩
      obtain ⟨e1, e2⟩ := hlo (i / L) hr0 hrP
      unfold visits
      rw [e1, e2]
      have h1 : i / L * L ≤ i := Int.ediv_mul_le i (ne_of_gt hLpos)
      have h2 : i < (i / L + 1) * L := Int.lt_ediv_add_one_mul_self i hLpos
      have h3 : (i / L + 1) * L = i / L * L + L := by ring
      omega
    · rintro ⟨r, hr0, hrP, hv⟩
      obtain ⟨e1, e2⟩ := hlo r hr0 hrP
      unfold visits at hv
      rw [e1, e2] at hv
      have h1 : 0 ≤ r * L := Int.mul_nonneg hr0 hL
      have h2 : (r + 1) * L ≤ P * L := Int.mul_le_mul_of_nonneg_right (by omega) hL
      have h3 : (r + 1) * L = r * L + L := by ring
      omega

/-- Under `0 ≤ n`, `1 ≤ size` and `0 ≤ rank < size` no product or sum of the bounds
computation leaves the `int` range. -/
theorem block_bounds {n rank size : Int} (hn : 0 ≤ n) (hn' : n ≤ INT_MAX) (hs : 1 ≤ size)
    (hr0 : 0 ≤ rank) (hr : rank < size) :
    int_div n size = n / size ∧ int_mul rank (int_div n size) = rank * (n / size) ∧
    int_add (int_mul rank (int_div n size)) (int_div n size) = rank * (n / size) + n / size ∧
    int_mul (int_add rank 1) (int_div n size) = rank * (n / size) + n / size := by
  have hq0 : 0 ≤ n / size := Int.ediv_nonneg hn (by omega)
  have hqn : size * (n / size) ≤ n := Int.mul_ediv_self_le (by omega)
  have hq : n / size ≤ n := by
    have : 1 * (n / size) ≤ size * (n / size) := Int.mul_le_mul_of_nonneg_right hs hq0
    omega
  have h1 : rank * (n / size) ≤ size * (n / size) :=
    Int.mul_le_mul_of_nonneg_right (le_of_lt hr) hq0
  have h2 : (rank + 1) * (n / size) ≤ size * (n / size) :=
    Int.mul_le_mul_of_nonneg_right (by omega) hq0
  have h3 : (rank + 1) * (n / size) = rank * (n / size) + n / size := by ring
  have h0 : 0 ≤ rank * (n / size) := Int.mul_nonneg hr0 hq0
  unfold INT_MAX at hn'
  have e1 : int_div n size = n / size := by
    unfold int_div
    rw [Int.tdiv_eq_ediv hn (by omega)]
    exact wrap32_eq ⟨by unfold INT_MIN; omega, by unfold INT_MAX; omega⟩
  have e2 : int_mul rank (n / size) = rank * (n / size) := by
    unfold int_mul
    exact wrap32_eq ⟨by unfold INT_MIN; omega, by unfold INT_MAX; omega⟩
  have e3 : int_add (rank * (n / size)) (n / size) = rank * (n / size) + n / size := by
    unfold int_add
    exact wrap32_eq ⟨by unfold INT_MIN; omega, by unfold INT_MAX; omega⟩
  have hsz : rank + 1 ≤ INT_MAX ∨ n / size = 0 := by
    by_cases hz : n / size = 0
    · exact Or.inr hz
    · left
      have : 1 ≤ n / size := by omega
      have : size * 1 ≤ size * (n / size) := Int.mul_le_mul_of_nonneg_left this (by omega)
      unfold INT_MAX; omega
  have e4 : int_mul (int_add rank 1) (n / size) = rank * (n / size) + n / size := by
    rcases hsz with h | h
    · unfold int_mul int_add
      rw [wrap32_eq (x := rank + 1) ⟨by unfold INT_MIN; omega, h⟩, h3]
      exact wrap32_eq ⟨by unfold INT_MIN; omega, by unfold INT_MAX; omega⟩
    · rw [h]; unfold int_mul; simp [wrap32]
  rw [e1, e2, e3, e4]
  exact ⟨rfl, rfl, rfl, rfl⟩


/-! ## Loop lemmas -/

theorem forLoop_zero {σ : Type} (body : Int → σ → σ) (i : Int) (s : σ) :
    forLoop body 0 i s = s := rfl

theorem forLoop_succ {σ : Type} (body : Int → σ → σ) (k : Nat) (i : Int) (s : σ) :
    forLoop body (k + 1) i s = forLoop body k (i + 1) (body i s) := rfl

/-- A loop is the left fold of its body over the successive indices. -/
theorem forLoop_eq_foldl {σ : Type} (body : Int → σ → σ) (k : Nat) (i : Int) (s : σ) :
    forLoop body k i s = List.foldl (fun (acc : σ) (t : Nat) => body (i + (t : Int)) acc) s (List.range k) := by
  induction k generalizing i s with
  | zero => simp [forLoop]
  | succ k ih =>
    rw [forLoop_succ, ih, List.range_succ_eq_map, List.foldl_cons, List.foldl_map]
    simp only [Nat.cast_zero, add_zero, Nat.succ_eq_add_one, Nat.cast_add, Nat.cast_one]
    congr 1
    funext acc t
    congr 1
    ring

/-! ## Memory lemmas -/

theorem Mat.set_same (M : Mat) (i j : Int) (v : F64) : (M.set i j v) i j = v := by
  simp [Mat.set]

theorem Mat.set_set (M : Mat) (i j : Int) (v w : F64) :
    (M.set i j v).set i j w = M.set i j w := by
  funext i1 j1
  simp only [Mat.set]
  split <;> rfl

theorem Mat.set_self (M : Mat) (i j : Int) : M.set i j (M i j) = M := by
  funext i1 j1
  simp only [Mat.set]
  split
  · next h => rw [h.1, h.2]
  · rfl

/-- The `k` loop adds the products onto `C[i][j]` and touches nothing else. -/
theorem forLoop_mm_step (i j : Int) (cnt : Nat) (k0 : Int) (t : MatMem) :
    forLoop (mm_step i j) cnt k0 t =
      { t with
        C := t.C.set i j
              (forLoop (fun k e => F64.add e (F64.mul (t.A i k) (t.B k j))) cnt k0 (t.C i j)) } := by
  induction cnt generalizing k0 t with
  | zero =>
    simp only [forLoop]
    rw [Mat.set_self]
  | succ cnt ih =>
    rw [forLoop_succ, ih]
    simp only [mm_step, Mat.set_same, Mat.set_set, forLoop_succ]

/-- One cell: `C[i][j]` becomes the accumulated sum, whatever it held before. -/
theorem mm_cell_eq (n i j : Int) (s : MatMem) :
    mm_cell n i j s = { s with C := s.C.set i j (expected s n i j) } := by
  unfold mm_cell cfor
  rw [forLoop_mm_step]
  simp only [Mat.set_same, Mat.set_set, expected, cfor]

/-- The `j` loop from `j0`: the cells `(i, j0), ..., (i, j0 + cnt - 1)` are filled. -/
theorem forLoop_mm_cell (n i : Int) (cnt : Nat) (j0 : Int) (t : MatMem) :
    forLoop (mm_cell n i) cnt j0 t =
      { t with C := fun i1 j1 =>
          if i1 = i ∧ j0 ≤ j1 ∧ j1 < j0 + (cnt : Int) then expected t n i j1 else t.C i1 j1 } := by
  induction cnt generalizing j0 t with
  | zero =>
    simp only [forLoop]
    cases t
    simp only [MatMem.mk.injEq, true_and]
    funext i1 j1
    rw [if_neg]
    simp only [Nat.cast_zero, add_zero]
    omega
  | succ cnt ih =>
    rw [forLoop_succ, ih, mm_cell_eq]
    cases t with
    | mk A B C =>
      simp only [MatMem.mk.injEq, true_and]
      funext i1 j1
      simp only [expected, Mat.set]
      by_cases h1 : i1 = i ∧ j0 + 1 ≤ j1 ∧ j1 < j0 + 1 + (cnt : Int)
      · rw [if_pos h1, if_pos]
        push_cast
        omega
      · rw [if_neg h1]
        by_cases h2 : i1 = i ∧ j1 = j0
        · rw [if_pos h2, if_pos, h2.2]
          push_cast
          omega
        · rw [if_neg h2, if_neg]
          push_cast
          omega

/-- One row of the product is filled by `mm_row`. -/
theorem mm_row_eq (n i : Int) (s : MatMem) :
    mm_row n i s = { s with C := fun i1 j1 =>
      if i1 = i ∧ 0 ≤ j1 ∧ j1 < n then expected s n i j1 else s.C i1 j1 } := by
  unfold mm_row cfor
  rw [forLoop_mm_cell]
  cases s
  simp only [MatMem.mk.injEq, true_and]
  funext i1 j1
  by_cases h : i1 = i ∧ 0 ≤ j1 ∧ j1 < n
  · rw [if_pos h, if_pos]
    omega
  · rw [if_neg h, if_neg]
    omega

/-- The `i` loop from `i0`: the rows `i0, ..., i0 + cnt - 1` are filled. -/
theorem forLoop_mm_row (n : Int) (cnt : Nat) (i0 : Int) (t : MatMem) :
    forLoop (mm_row n) cnt i0 t =
      { t with C := fun i1 j1 =>
          if (i0 ≤ i1 ∧ i1 < i0 + (cnt : Int)) ∧ 0 ≤ j1 ∧ j1 < n then expected t n i1 j1
          else t.C i1 j1 } := by
  induction cnt generalizing i0 t with
  | zero =>
    simp only [forLoop]
    cases t
    simp only [MatMem.mk.injEq, true_and]
    funext i1 j1
    rw [if_neg]
    simp only [Nat.cast_zero, add_zero]
    omega
  | succ cnt ih =>
    rw [forLoop_succ, ih, mm_row_eq]
    cases t with
    | mk A B C =>
      simp only [MatMem.mk.injEq, true_and]
      funext i1 j1
      simp only [expected]
      by_cases h1 : (i0 + 1 ≤ i1 ∧ i1 < i0 + 1 + (cnt : Int)) ∧ 0 ≤ j1 ∧ j1 < n
      · rw [if_pos h1, if_pos]
        push_cast
        omega
      · rw [if_neg h1]
        by_cases h2 : i1 = i0 ∧ 0 ≤ j1 ∧ j1 < n
        · rw [if_pos h2, if_pos, h2.1]
          push_cast
          omega
        · rw [if_neg h2, if_neg]
          push_cast
          omega

/-- Closed form of a row-block loop `for (int i = lo; i < hi; i++)` over `mm_row`. -/
theorem cfor_mm_row (n lo hi : Int) (s : MatMem) :
    cfor lo hi (mm_row n) s =
      { s with C := fun i j =>
          if visits lo hi i ∧ 0 ≤ j ∧ j < n then expected s n i j else s.C i j } := by
  unfold cfor
  rw [forLoop_mm_row]
  cases s
  simp only [MatMem.mk.injEq, true_and]
  funext i1 j1
  unfold visits
  by_cases h : (lo ≤ i1 ∧ i1 < hi) ∧ 0 ≤ j1 ∧ j1 < n
  · rw [if_pos h, if_pos]
    omega
  · rw [if_neg h, if_neg]
    omega

/-- The verifier's `expected` is the left-to-right accumulation. -/
theorem expected_eq_dot (s : MatMem) (n i j : Int) :
    expected s n i j = dotLeftToRight s.A s.B n i j := by
  unfold expected dotLeftToRight cfor
  rw [forLoop_eq_foldl]
  simp

/-! ## Rounding lemmas -/

namespace F64

theorem roundHalfEven_intCast (z : Int) : roundHalfEven (z : ℚ) = z := by
  unfold roundHalfEven
  rw [Int.floor_intCast, sub_self, if_pos (by norm_num)]

/-- A magnitude `M * 2^e` with a significand below `2^53` and an exponent not below the
subnormal exponent is its own rounding. -/
theorem roundMag_dyadic (M : Nat) (e : Int) (hM0 : 0 < M) (hM : M < 2 ^ 53) (he : -1074 ≤ e) :
    roundMag ((M : ℚ) * 2 ^ e) = (M : ℚ) * 2 ^ e := by
  have h2 : (0 : ℚ) < 2 := by norm_num
  have ha : (0 : ℚ) < (M : ℚ) * 2 ^ e := by
    apply mul_pos
    · exact_mod_cast hM0
    · exact zpow_pos h2 e
  have hlt : (M : ℚ) * 2 ^ e < ((2 : ℕ) : ℚ) ^ (53 + e) := by
    rw [Nat.cast_ofNat, zpow_add₀ (ne_of_gt h2)]
    apply mul_lt_mul_of_pos_right _ (zpow_pos h2 e)
    rw [zpow_ofNat]
    exact_mod_cast hM
  have hlog : Int.log 2 ((M : ℚ) * 2 ^ e) < 53 + e :=
    (Int.lt_zpow_iff_log_lt (by norm_num) ha).mp hlt
  have hE : ulpExp ((M : ℚ) * 2 ^ e) ≤ e := by
    unfold ulpExp
    apply max_le <;> omega
  unfold roundMag
  generalize ulpExp ((M : ℚ) * 2 ^ e) = E at hE
  obtain ⟨d, hd⟩ : ∃ d : Nat, e = E + d := ⟨(e - E).toNat, by omega⟩
  have hscaled : (M : ℚ) * 2 ^ e / 2 ^ E = (((M * 2 ^ d : Nat) : Int) : ℚ) := by
    rw [hd, zpow_add₀ (ne_of_gt h2), zpow_natCast]
    have hE0 : (2 : ℚ) ^ E ≠ 0 := ne_of_gt (zpow_pos h2 E)
    field_simp
    ring
  rw [hscaled, roundHalfEven_intCast, hd, zpow_add₀ (ne_of_gt h2), zpow_natCast]
  push_cast
  ring


/-- A value whose magnitude is `M * 2^e`, with `0 < M < 2^53` and `-1074 ≤ e ≤ 971`, is a
`double`: rounding returns it unchanged. -/
theorem round_exact (q : ℚ) (M : Nat) (e : Int) (hq : |q| = (M : ℚ) * 2 ^ e) (hM0 : 0 < M)
    (hM : M < 2 ^ 53) (he : -1074 ≤ e) (he1 : e ≤ 971) : round q = fin q := by
  have h2 : (0 : ℚ) < 2 := by norm_num
  have hmag : roundMag |q| = |q| := by rw [hq]; exact roundMag_dyadic M e hM0 hM he
  have hpos : (0 : ℚ) < |q| := by
    rw [hq]
    apply mul_pos
    · exact_mod_cast hM0
    · exact zpow_pos h2 e
  have hq0 : q ≠ 0 := abs_pos.mp hpos
  have hmax : ¬ maxFinite < |q| := by
    rw [hq, not_lt]
    unfold maxFinite
    have h1 : (M : ℚ) ≤ 2 ^ 53 - 1 := by
      have : M + 1 ≤ 2 ^ 53 := hM
      have h3 : ((M + 1 : ℕ) : ℚ) ≤ ((2 ^ 53 : ℕ) : ℚ) := by exact_mod_cast this
      push_cast at h3
      linarith
    have h4 : (2 : ℚ) ^ e ≤ 2 ^ (971 : ℕ) := by
      rw [← zpow_natCast]
      exact zpow_le_zpow_right₀ (by norm_num) (by simpa using he1)
    have h5 : (0 : ℚ) ≤ (M : ℚ) := by positivity
    calc (M : ℚ) * 2 ^ e ≤ (M : ℚ) * 2 ^ (971 : ℕ) := mul_le_mul_of_nonneg_left h4 h5
      _ ≤ (2 ^ 53 - 1) * 2 ^ (971 : ℕ) := mul_le_mul_of_nonneg_right h1 (by positivity)
  unfold round
  rw [if_neg hq0, hmag, if_neg hmax, if_neg (ne_of_gt hpos)]
  by_cases hneg : q < 0
  · rw [if_pos hneg, abs_of_neg hneg, neg_neg]
  · rw [if_neg hneg, abs_of_nonneg (not_lt.mp hneg)]

/-- Conversion of an `int`-sized (indeed any 53-bit) integer to `double` is exact. -/
theorem ofInt_exact (z : Int) (hz : |z| < 2 ^ 53) : ofInt z = fin (z : ℚ) := by
  unfold ofInt
  by_cases hz0 : z = 0
  · rw [hz0]; simp [round]
  · apply round_exact (z : ℚ) z.natAbs 0
    · rw [zpow_zero, mul_one, Nat.cast_natAbs, Int.cast_abs]
    · exact Int.natAbs_pos.mpr hz0
    · rw [Int.abs_eq_natAbs] at hz
      exact_mod_cast hz
    · norm_num
    · norm_num

/-- Addition of two integers is exact as long as the sum has at most 53 bits. -/
theorem add_int (x y : Int) (h : |x + y| < 2 ^ 53) :
    add (fin (x : ℚ)) (fin (y : ℚ)) = fin ((x + y : Int) : ℚ) := by
  have := ofInt_exact (x + y) h
  unfold ofInt at this
  simp only [add]
  rw [← this]
  push_cast
  rfl

/-- Multiplication of two non-negative integers is exact as long as the product has at
most 53 bits. -/
theorem mul_int (x y : Int) (hx : 0 ≤ x) (hy : 0 ≤ y) (h : x * y < 2 ^ 53) :
    mul (fin (x : ℚ)) (fin (y : ℚ)) = fin ((x * y : Int) : ℚ) := by
  have hxy : 0 ≤ x * y := Int.mul_nonneg hx hy
  have := ofInt_exact (x * y) (by rw [abs_of_nonneg hxy]; exact h)
  unfold ofInt at this
  simp only [mul, isZero, signBit, val]
  by_cases h0 : x = 0 ∨ y = 0
  · rcases h0 with h0 | h0
    · subst h0
      have : ¬ ((y : ℚ) < 0) := by push_neg; exact_mod_cast hy
      simp [this]
    · subst h0
      have : ¬ ((x : ℚ) < 0) := by push_neg; exact_mod_cast hx
      simp [this]
  · push_neg at h0
    have hx0 : (x : ℚ) ≠ 0 := by exact_mod_cast h0.1
    have hy0 : (y : ℚ) ≠ 0 := by exact_mod_cast h0.2
    simp only [hx0, hy0, decide_False, Bool.or_self, Bool.false_eq_true, if_false]
    rw [← this]
    push_cast
    rfl

/-- A finite value minus itself is `+0.0`. -/
theorem sub_self_fin (q : ℚ) : sub (fin q) (fin q) = fin 0 := by
  unfold sub
  by_cases h : q = 0
  · simp [neg, h, add]
  · simp [neg, h, add, round]

end F64

/-! ## The tolerance literal and the verifier's test -/

theorem ulpExp_tol : F64.ulpExp (1 / 1000000) = -72 := by
  have h1 : -20 ≤ Int.log 2 (1 / 1000000 : ℚ) :=
    (Int.zpow_le_iff_le_log (by norm_num) (by norm_num)).mp (by norm_num)
  have h2 : Int.log 2 (1 / 1000000 : ℚ) < -19 :=
    (Int.lt_zpow_iff_log_lt (by norm_num) (by norm_num)).mp (by norm_num)
  unfold F64.ulpExp
  have h3 : Int.log 2 (1 / 1000000 : ℚ) = -20 := by omega
  rw [h3]
  decide

/-- The `double` nearest to `1e-6` is `4722366482869645 * 2^(-72)`. -/
theorem tol_eq : tol = F64.fin (4722366482869645 / 2 ^ 72) := by
  have hfl : ⌊(1 / 1000000 : ℚ) / 2 ^ (-72 : ℤ)⌋ = 4722366482869645 := by
    rw [Int.floor_eq_iff]
    constructor <;> norm_num
  have hmag : F64.roundMag (1 / 1000000) = 4722366482869645 / 2 ^ 72 := by
    unfold F64.roundMag F64.roundHalfEven
    rw [ulpExp_tol, hfl, if_pos (by norm_num)]
    norm_num
  unfold tol F64.round
  rw [if_neg (by norm_num), abs_of_pos (by norm_num), hmag, if_neg, if_neg (by norm_num),
    if_neg (by norm_num)]
  unfold F64.maxFinite
  norm_num

theorem toInt32_range {x : F64} {d : Int} (h : F64.toInt32 x = some d) : isInt32 d := by
  cases x with
  | nan => simp [F64.toInt32] at h
  | inf s => simp [F64.toInt32] at h
  | nzero =>
    simp only [F64.toInt32, Option.some.injEq] at h
    rw [← h]
    decide
  | fin q =>
    simp only [F64.toInt32] at h
    by_cases hr : isInt32 (F64.trunc q)
    · rw [if_pos hr, Option.some.injEq] at h
      rw [← h]
      exact hr
    · rw [if_neg hr] at h
      cases h

/-- What the test `abs(C[i][j] - expected) > 1e-6` computes: whether the difference,
truncated to an `int`, is nonzero. -/
theorem mismatch_eq (c e : F64) :
    mismatch c e =
      match F64.toInt32 (F64.sub c e) with
      | none => none
      | some d => if d = INT_MIN then none else some (decide (d ≠ 0)) := by
  unfold mismatch
  cases hd : F64.toInt32 (F64.sub c e) with
  | none => rfl
  | some d =>
    have hr := toInt32_range hd
    by_cases hmin : d = INT_MIN
    · simp only [int_abs, if_pos hmin]
    · simp only [int_abs, if_neg hmin]
      unfold isInt32 INT_MIN INT_MAX at hr
      unfold INT_MIN at hmin
      have habs : |(|d|)| < 2 ^ 53 := by
        rw [abs_abs, abs_lt]
        constructor <;> omega
      rw [F64.ofInt_exact _ habs, tol_eq]
      simp only [F64.gt, F64.val]
      congr 1
      by_cases h0 : d = 0
      · subst h0
        simp only [abs_zero, Int.cast_zero, ne_eq, not_true_eq_false, decide_False,
          decide_eq_false_iff_not, not_lt]
        norm_num
      · have h1 : (1 : ℚ) ≤ ((|d| : Int) : ℚ) := by
          have : 1 ≤ |d| := Int.one_le_abs h0
          exact_mod_cast this
        simp only [ne_eq, h0, not_false_eq_true, decide_True, decide_eq_true_eq]
        have : (4722366482869645 / 2 ^ 72 : ℚ) < 1 := by norm_num
        linarith

theorem verify_cols_succ (s : MatMem) (N i : Int) (f : Nat) (j : Int) :
    verify_cols s N i (f + 1) j =
      match mismatch (s.C i j) (expected s N i j) with
      | none => none
      | some true => some false
      | some false => verify_cols s N i f (j + 1) := rfl

/-- The column loop ends with `correct = 1` exactly when no test in its range fires. -/
theorem verify_cols_true (s : MatMem) (N i : Int) (f : Nat) (j0 : Int) :
    verify_cols s N i f j0 = some true ↔
      ∀ j, j0 ≤ j → j < j0 + (f : Int) → mismatch (s.C i j) (expected s N i j) = some false := by
  induction f generalizing j0 with
  | zero =>
    simp only [verify_cols, Nat.cast_zero, add_zero, true_iff]
    intro j h1 h2
    omega
  | succ f ih =>
    rw [verify_cols_succ]
    have hin : j0 < j0 + ((f + 1 : Nat) : Int) := by push_cast; omega
    cases hm : mismatch (s.C i j0) (expected s N i j0) with
    | none =>
      constructor
      · intro h; cases h
      · intro h
        have := h j0 (le_refl _) hin
        rw [hm] at this
        cases this
    | some b =>
      cases b with
      | true =>
        constructor
        · intro h; cases h
        · intro h
          have := h j0 (le_refl _) hin
          rw [hm] at this
          cases this
      | false =>
        show verify_cols s N i f (j0 + 1) = some true ↔ _
        rw [ih]
        constructor
        · intro h j h1 h2
          by_cases hj : j = j0
          · rw [hj]; exact hm
          · exact h j (by omega) (by push_cast at h2; omega)
        · intro h j h1 h2
          exact h j (by omega) (by push_cast; omega)

theorem verify_rows_succ (s : MatMem) (N : Int) (f : Nat) (i : Int) :
    verify_rows s N (f + 1) i =
      match verify_cols s N i 10 0 with
      | none => none
      | some false => some false
      | some true => verify_rows s N f (i + 1) := rfl

/-- The row loop ends with `correct = 1` exactly when no test in the window fires. -/
theorem verify_rows_true (s : MatMem) (N : Int) (f : Nat) (i0 : Int) :
    verify_rows s N f i0 = some true ↔
      ∀ i, i0 ≤ i → i < i0 + (f : Int) → ∀ j, 0 ≤ j → j < 10 →
        mismatch (s.C i j) (expected s N i j) = some false := by
  induction f generalizing i0 with
  | zero =>
    simp only [verify_rows, Nat.cast_zero, add_zero, true_iff]
    intro i h1 h2
    omega
  | succ f ih =>
    rw [verify_rows_succ]
    have hin : i0 < i0 + ((f + 1 : Nat) : Int) := by push_cast; omega
    have hc := verify_cols_true s N i0 10 0
    have hten : ∀ j : Int, j < 0 + ((10 : Nat) : Int) ↔ j < 10 := by
      intro j; push_cast; omega
    cases hv : verify_cols s N i0 10 0 with
    | none =>
      rw [hv] at hc
      constructor
      · intro h; cases h
      · intro h
        have : (none : Option Bool) = some true :=
          hc.mpr (fun j h1 h2 => h i0 (le_refl _) hin j h1 ((hten j).mp h2))
        cases this
    | some b =>
      cases b with
      | false =>
        rw [hv] at hc
        constructor
        · intro h; cases h
        · intro h
          have : some false = some true :=
            hc.mpr (fun j h1 h2 => h i0 (le_refl _) hin j h1 ((hten j).mp h2))
          cases this
      | true =>
        rw [hv] at hc
        have hc1 := hc.mp rfl
        show verify_rows s N f (i0 + 1) = some true ↔ _
        rw [ih]
        constructor
        · intro h i h1 h2 j hj0 hj1
          by_cases hi : i = i0
          · rw [hi]; exact hc1 j hj0 ((hten j).mpr hj1)
          · exact h i (by omega) (by push_cast at h2; omega) j hj0 hj1
        · intro h i h1 h2
          exact h i (by omega) (by push_cast; omega)

/-- The verifier reports "Yes" exactly when none of the 100 tests of the window fires. -/
theorem verify_true_iff (s : MatMem) (N : Int) :
    verify s N = some true ↔
      ∀ i, 0 ≤ i → i < 10 → ∀ j, 0 ≤ j → j < 10 →
        mismatch (s.C i j) (expected s N i j) = some false := by
  unfold verify
  rw [verify_rows_true]
  constructor
  · intro h i h1 h2
    exact h i h1 (by push_cast; omega)
  · intro h i h1 h2
    exact h i h1 (by push_cast at h2; omega)

/-! ## Initialisation and vector loops -/

theorem forLoop_fill_cols (g : Int → F64) (i : Int) (cnt : Nat) (j0 : Int) (M : Mat) :
    forLoop (fun j M2 => Mat.set M2 i j (g j)) cnt j0 M =
      fun i1 j1 => if i1 = i ∧ j0 ≤ j1 ∧ j1 < j0 + (cnt : Int) then g j1 else M i1 j1 := by
  induction cnt generalizing j0 M with
  | zero =>
    simp only [forLoop]
    funext i1 j1
    rw [if_neg]
    simp only [Nat.cast_zero, add_zero]
    omega
  | succ cnt ih =>
    rw [forLoop_succ, ih]
    funext i1 j1
    simp only [Mat.set]
    by_cases h1 : i1 = i ∧ j0 + 1 ≤ j1 ∧ j1 < j0 + 1 + (cnt : Int)
    · rw [if_pos h1, if_pos]
      push_cast
      omega
    · rw [if_neg h1]
      by_cases h2 : i1 = i ∧ j1 = j0
      · rw [if_pos h2, if_pos, h2.2]
        push_cast
        omega
      · rw [if_neg h2, if_neg]
        push_cast
        omega

theorem forLoop_fill_rows (g : Int → Int → F64) (n : Int) (cnt : Nat) (i0 : Int) (M : Mat) :
    forLoop (fun i M1 => cfor 0 n (fun j M2 => Mat.set M2 i j (g i j)) M1) cnt i0 M =
      fun i1 j1 =>
        if (i0 ≤ i1 ∧ i1 < i0 + (cnt : Int)) ∧ 0 ≤ j1 ∧ j1 < n then g i1 j1 else M i1 j1 := by
  induction cnt generalizing i0 M with
  | zero =>
    simp only [forLoop]
    funext i1 j1
    rw [if_neg]
    simp only [Nat.cast_zero, add_zero]
    omega
  | succ cnt ih =>
    rw [forLoop_succ, ih]
    unfold cfor
    rw [forLoop_fill_cols]
    funext i1 j1
    beta_reduce
    by_cases h1 : (i0 + 1 ≤ i1 ∧ i1 < i0 + 1 + (cnt : Int)) ∧ 0 ≤ j1 ∧ j1 < n
    · rw [if_pos h1, if_pos]
      push_cast
      omega
    · rw [if_neg h1]
      by_cases h2 : i1 = i0 ∧ 0 ≤ j1 ∧ j1 < 0 + ((n - 0).toNat : Int)
      · rw [if_pos h2, if_pos, h2.1]
        push_cast
        omega
      · rw [if_neg h2, if_neg]
        push_cast
        omega

/-- Closed form of `initialize_matrix`: the `n`-by-`n` block holds `(double)(i + j)`. -/
theorem initialize_matrix_eq (M : Mat) (n i j : Int) :
    initialize_matrix M n i j =
      if (0 ≤ i ∧ i < n) ∧ 0 ≤ j ∧ j < n then F64.ofInt (int_add i j) else M i j := by
  unfold initialize_matrix
  rw [cfor, forLoop_fill_rows (fun i j => F64.ofInt (int_add i j))]
  beta_reduce
  by_cases h : (0 ≤ i ∧ i < n) ∧ 0 ≤ j ∧ j < n
  · rw [if_pos h, if_pos]
    omega
  · rw [if_neg h, if_neg]
    omega

/-- The element loop from `i0`: the elements `i0, ..., i0 + cnt - 1` receive `a[i] + b[i]`. -/
theorem forLoop_vec_step (cnt : Nat) (i0 : Int) (t : VecMem) :
    forLoop vec_step cnt i0 t =
      { t with c := fun i =>
          if i0 ≤ i ∧ i < i0 + (cnt : Int) then F64.add (t.a i) (t.b i) else t.c i } := by
  induction cnt generalizing i0 t with
  | zero =>
    simp only [forLoop]
    cases t
    simp only [VecMem.mk.injEq, true_and]
    funext i
    rw [if_neg]
    simp only [Nat.cast_zero, add_zero]
    omega
  | succ cnt ih =>
    rw [forLoop_succ, ih]
    cases t with
    | mk a b c =>
      simp only [vec_step, VecMem.mk.injEq, true_and]
      funext i
      simp only [Vec.set]
      by_cases h1 : i0 + 1 ≤ i ∧ i < i0 + 1 + (cnt : Int)
      · rw [if_pos h1, if_pos]
        push_cast
        omega
      · rw [if_neg h1]
        by_cases h2 : i = i0
        · rw [if_pos h2, if_pos, h2]
          push_cast
          omega
        · rw [if_neg h2, if_neg]
          push_cast
          omega

/-- Closed form of an element loop `for (int i = lo; i < hi; i++) c[i] = a[i] + b[i];`. -/
theorem cfor_vec_step (lo hi : Int) (s : VecMem) :
    cfor lo hi vec_step s =
      { s with c := fun i => if visits lo hi i then F64.add (s.a i) (s.b i) else s.c i } := by
  unfold cfor
  rw [forLoop_vec_step]
  cases s
  simp only [VecMem.mk.injEq, true_and]
  funext i
  unfold visits
  by_cases h : lo ≤ i ∧ i < hi
  · rw [if_pos h, if_pos]
    omega
  · rw [if_neg h, if_neg]
    omega

/-- Running the ranks `r0, ..., r0 + cnt - 1` one after the other: `a` and `b` are kept,
an element visited by one of them holds `a[i] + b[i]`, the others are kept. -/
theorem forLoop_all_ranks (n size : Int) (cnt : Nat) (r0 : Int) (t : VecMem) :
    (forLoop (fun rank s1 => vector_add_mpi s1 n rank size) cnt r0 t).a = t.a ∧
    (forLoop (fun rank s1 => vector_add_mpi s1 n rank size) cnt r0 t).b = t.b ∧
    ∀ i, ((∃ r, r0 ≤ r ∧ r < r0 + (cnt : Int) ∧
            visits (mpi_vector_add.start n r size) (mpi_vector_add.end_ n r size) i) →
          (forLoop (fun rank s1 => vector_add_mpi s1 n rank size) cnt r0 t).c i =
            F64.add (t.a i) (t.b i)) ∧
      ((¬ ∃ r, r0 ≤ r ∧ r < r0 + (cnt : Int) ∧
            visits (mpi_vector_add.start n r size) (mpi_vector_add.end_ n r size) i) →
          (forLoop (fun rank s1 => vector_add_mpi s1 n rank size) cnt r0 t).c i = t.c i) := by
  induction cnt generalizing r0 t with
  | zero =>
    refine ⟨rfl, rfl, fun i => ⟨?_, fun _ => rfl⟩⟩
    rintro ⟨r, h1, h2, _⟩
    simp only [Nat.cast_zero, add_zero] at h2
    omega
  | succ cnt ih =>
    rw [forLoop_succ]
    obtain ⟨ha, hb, hc⟩ := ih (r0 + 1) (vector_add_mpi t n r0 size)
    have hstep : vector_add_mpi t n r0 size =
        { t with c := fun i =>
            if visits (mpi_vector_add.start n r0 size) (mpi_vector_add.end_ n r0 size) i
            then F64.add (t.a i) (t.b i) else t.c i } := by
      unfold vector_add_mpi
      rw [cfor_vec_step]
    refine ⟨?_, ?_, fun i => ⟨?_, ?_⟩⟩
    · rw [ha, hstep]
    · rw [hb, hstep]
    · rintro ⟨r, h1, h2, h3⟩
      by_cases hlater : ∃ r, r0 + 1 ≤ r ∧ r < r0 + 1 + (cnt : Int) ∧
          visits (mpi_vector_add.start n r size) (mpi_vector_add.end_ n r size) i
      · rw [(hc i).1 hlater, hstep]
      · rw [(hc i).2 hlater, hstep]
        have hr : r = r0 := by
          by_contra hne
          exact hlater ⟨r, by omega, by push_cast at h2; omega, h3⟩
        rw [hr] at h3
        simp only [if_pos h3]
    · intro hnone
      have hlater : ¬ ∃ r, r0 + 1 ≤ r ∧ r < r0 + 1 + (cnt : Int) ∧
          visits (mpi_vector_add.start n r size) (mpi_vector_add.end_ n r size) i := by
        rintro ⟨r, h1, h2, h3⟩
        exact hnone ⟨r, by omega, by push_cast; omega, h3⟩
      rw [(hc i).2 hlater, hstep]
      have h0 : ¬ visits (mpi_vector_add.start n r0 size) (mpi_vector_add.end_ n r0 size) i := by
        intro h3
        exact hnone ⟨r0, le_refl _, by push_cast; omega, h3⟩
      simp only [if_neg h0]

/-! ## Row blocks: bounds without overflow -/

/-- For every `int` `n`, `1 ≤ size` and `0 ≤ rank < size` the bounds computed by
`matrix_mult_mpi` and `vector_add_mpi` are the mathematical ones. -/
theorem row_block_eq {n rank size : Int} (hn : isInt32 n) (hs : 1 ≤ size)
    (hr0 : 0 ≤ rank) (hr : rank < size) :
    int_mul rank (int_div n size) = rank * Int.tdiv n size ∧
    int_add (int_mul rank (int_div n size)) (int_div n size) =
      rank * Int.tdiv n size + Int.tdiv n size := by
  unfold isInt32 INT_MIN INT_MAX at hn
  by_cases hn0 : 0 ≤ n
  · have hb := block_bounds hn0 (by unfold INT_MAX; omega) hs hr0 hr
    rw [Int.tdiv_eq_ediv hn0 (by omega)]
    exact ⟨hb.2.1, hb.2.2.1⟩
  · have hq : Int.tdiv n size = -((-n) / size) := by
      have h1 : Int.tdiv (-(-n)) size = -(Int.tdiv (-n) size) := Int.neg_tdiv (-n) size
      rw [neg_neg] at h1
      rw [h1, Int.tdiv_eq_ediv (by omega) (by omega)]
    have hp0 : 0 ≤ (-n) / size := Int.ediv_nonneg (by omega) (by omega)
    have hpn : size * ((-n) / size) ≤ -n := Int.mul_ediv_self_le (by omega)
    have hp : (-n) / size ≤ -n := by
      have : 1 * ((-n) / size) ≤ size * ((-n) / size) := Int.mul_le_mul_of_nonneg_right hs hp0
      omega
    have h1 : rank * ((-n) / size) ≤ size * ((-n) / size) :=
      Int.mul_le_mul_of_nonneg_right (le_of_lt hr) hp0
    have h2 : (rank + 1) * ((-n) / size) ≤ size * ((-n) / size) :=
      Int.mul_le_mul_of_nonneg_right (by omega) hp0
    have h3 : (rank + 1) * ((-n) / size) = rank * ((-n) / size) + (-n) / size := by ring
    have h0 : 0 ≤ rank * ((-n) / size) := Int.mul_nonneg hr0 hp0
    have h4 : rank * -((-n) / size) = -(rank * ((-n) / size)) := by ring
    have e1 : int_div n size = -((-n) / size) := by
      unfold int_div
      rw [hq]
      exact wrap32_eq ⟨by unfold INT_MIN; omega, by unfold INT_MAX; omega⟩
    have e2 : int_mul rank (-((-n) / size)) = rank * -((-n) / size) := by
      unfold int_mul
      exact wrap32_eq ⟨by unfold INT_MIN; omega, by unfold INT_MAX; omega⟩
    have e3 : int_add (rank * -((-n) / size)) (-((-n) / size)) =
        rank * -((-n) / size) + -((-n) / size) := by
      unfold int_add
      exact wrap32_eq ⟨by unfold INT_MIN; omega, by unfold INT_MAX; omega⟩
    rw [e1, e2, e3, hq]
    exact ⟨rfl, rfl⟩

/-- The bounds of `matrix_mult_mpi` in terms of the C quotient `n / size`. -/
theorem row_block_c {n rank size : Int} (hn : isInt32 n) (hs : 1 ≤ size)
    (hr0 : 0 ≤ rank) (hr : rank < size) :
    mpi_matrix_mult.start_row n rank size = rank * int_div n size ∧
    mpi_matrix_mult.end_row n rank size = rank * int_div n size + int_div n size := by
  have h := row_block_eq hn hs hr0 hr
  have h0 := row_block_eq hn hs (le_refl 0) (by omega : (0 : Int) < size)
  have hq : int_div n size = Int.tdiv n size := by
    have := h0.2
    simp only [int_mul, zero_mul, zero_add, int_add] at this
    have hw : wrap32 0 = 0 := by decide
    rw [hw, zero_add] at this
    unfold int_div at this ⊢
    unfold wrap32 at this ⊢
    omega
  unfold mpi_matrix_mult.start_row mpi_matrix_mult.end_row mpi_matrix_mult.start_row
    mpi_matrix_mult.local_n
  refine ⟨?_, ?_⟩
  · rw [h.1, hq]
  · rw [h.2, hq]

/-- For `0 ≤ n`, `n % size` of C is the mathematical remainder. -/
theorem int_mod_eq {n size : Int} (hn : 0 ≤ n) (hn1 : n ≤ INT_MAX) (hs : 1 ≤ size) :
    int_mod n size = n % size := by
  unfold int_mod
  rw [Int.tmod_eq_emod hn (by omega)]
  have h1 : 0 ≤ n % size := Int.emod_nonneg n (by omega)
  have h2 : size * (n / size) + n % size = n := Int.ediv_add_emod n size
  have h3 : 0 ≤ size * (n / size) := Int.mul_nonneg (by omega) (Int.ediv_nonneg hn (by omega))
  unfold INT_MAX at hn1
  exact wrap32_eq ⟨by unfold INT_MIN; omega, by unfold INT_MAX; omega⟩

/-- Without any divisibility assumption the row blocks of `matrix_mult_mpi`, the element
blocks of `vector_add_mpi` and the chunks of the hw1 loop tile `[0, size * (n / size))`. -/
theorem blocks_tile {n size : Int} (hn : 0 ≤ n) (hn1 : n ≤ INT_MAX) (hs : 1 ≤ size) :
    PartitionOf (fun r => mpi_matrix_mult.start_row n r size)
      (fun r => mpi_matrix_mult.end_row n r size) size (size * (n / size)) ∧
    PartitionOf (fun r => mpi_vector_add.start n r size)
      (fun r => mpi_vector_add.end_ n r size) size (size * (n / size)) ∧
    PartitionOf (fun r => hw1.lo n size r) (fun r => hw1.hi n size r) size
      (size * (n / size)) := by
  have hL : 0 ≤ n / size := Int.ediv_nonneg hn (by omega)
  refine ⟨?_, ?_, ?_⟩
  · apply tile_of_bounds _ _ size (n / size) hL
    intro r hr0 hr
    have hb := block_bounds hn hn1 hs hr0 hr
    exact ⟨hb.2.1, hb.2.2.1⟩
  · apply tile_of_bounds _ _ size (n / size) hL
    intro r hr0 hr
    have hb := block_bounds hn hn1 hs hr0 hr
    exact ⟨hb.2.1, hb.2.2.1⟩
  · apply tile_of_bounds _ _ size (n / size) hL
    intro r hr0 hr
    have hb := block_bounds hn hn1 hs hr0 hr
    exact ⟨hb.2.1, hb.2.2.2⟩

/-- In a partition every index of the covered interval has exactly one owner. -/
theorem PartitionOf.owner {lo hi : Int → Int} {P M : Int} (h : PartitionOf lo hi P M)
    (i : Int) (hi0 : 0 ≤ i) (hiM : i < M) :
    ∃! r, 0 ≤ r ∧ r < P ∧ visits (lo r) (hi r) i := by
  obtain ⟨r, hr0, hrP, hv⟩ := (h.2 i).mp ⟨hi0, hiM⟩
  refine ⟨r, ⟨hr0, hrP, hv⟩, ?_⟩
  rintro r1 ⟨h0, h1, h2⟩
  exact h.1 r1 r i h0 h1 hr0 hrP h2 hv

/-- Under `n % size == 0` the element blocks of `vector_add_mpi` partition `[0, n)`. -/
theorem vec_blocks_partition (n size : Int) (hn : 0 ≤ n) (hn1 : n ≤ INT_MAX) (hs : 1 ≤ size)
    (hdiv : int_mod n size = 0) :
    PartitionOf (fun r => mpi_vector_add.start n r size)
      (fun r => mpi_vector_add.end_ n r size) size n := by
  have hmod : n % size = 0 := by rw [← int_mod_eq hn hn1 hs]; exact hdiv
  have hM : size * (n / size) = n := by
    have := Int.ediv_add_emod n size
    omega
  have h2 := (blocks_tile hn hn1 hs).2.1
  rw [hM] at h2
  exact h2

/-! ## Claims on the partition -/

/-- C1: for `0 ≤ N`, `1 ≤ P` and `N % P == 0` the ranges `[r*(N/P), r*(N/P) + N/P)` that
`matrix_mult_mpi`, `vector_add_mpi` and the hw1 chunk loop compute for the ranks
`r = 0..P-1` are pairwise disjoint, their union is exactly `[0, N)`, and every index of
`[0, N)` is owned by exactly one rank. -/
theorem C1_blocks_partition (N P : Int) (hN : 0 ≤ N) (hN1 : N ≤ INT_MAX) (hP : 1 ≤ P)
    (hdiv : int_mod N P = 0) :
    (PartitionOf (fun r => mpi_matrix_mult.start_row N r P)
        (fun r => mpi_matrix_mult.end_row N r P) P N ∧
      ∀ i, 0 ≤ i → i < N → ∃! r, 0 ≤ r ∧ r < P ∧
        visits (mpi_matrix_mult.start_row N r P) (mpi_matrix_mult.end_row N r P) i) ∧
    (PartitionOf (fun r => mpi_vector_add.start N r P)
        (fun r => mpi_vector_add.end_ N r P) P N ∧
      ∀ i, 0 ≤ i → i < N → ∃! r, 0 ≤ r ∧ r < P ∧
        visits (mpi_vector_add.start N r P) (mpi_vector_add.end_ N r P) i) ∧
    (PartitionOf (fun r => hw1.lo N P r) (fun r => hw1.hi N P r) P N ∧
      ∀ i, 0 ≤ i → i < N → ∃! r, 0 ≤ r ∧ r < P ∧
        visits (hw1.lo N P r) (hw1.hi N P r) i) ∧
    (∀ r, 0 ≤ r → r < P →
      mpi_matrix_mult.start_row N r P = r * (N / P) ∧
      mpi_matrix_mult.end_row N r P = r * (N / P) + N / P ∧
      mpi_vector_add.start N r P = r * (N / P) ∧
      mpi_vector_add.end_ N r P = r * (N / P) + N / P ∧
      hw1.lo N P r = r * (N / P) ∧
      hw1.hi N P r = r * (N / P) + N / P) := by
  have hmod : N % P = 0 := by rw [← int_mod_eq hN hN1 hP]; exact hdiv
  have hM : P * (N / P) = N := by
    have := Int.ediv_add_emod N P
    omega
  obtain ⟨h1, h2, h3⟩ := blocks_tile hN hN1 hP
  rw [hM] at h1 h2 h3
  refine ⟨⟨h1, ?_⟩, ⟨h2, ?_⟩, ⟨h3, ?_⟩, ?_⟩
  · exact fun i hi0 hiN => PartitionOf.owner h1 i hi0 hiN
  · exact fun i hi0 hiN => PartitionOf.owner h2 i hi0 hiN
  · exact fun i hi0 hiN => PartitionOf.owner h3 i hi0 hiN
  · intro r hr0 hr
    have hb := block_bounds hN hN1 hP hr0 hr
    exact ⟨hb.2.1, hb.2.2.1, hb.2.1, hb.2.2.1, hb.2.1, hb.2.2.2⟩

/-- C1 at the constants of hw1 (`N = 1000`, `N_THREADS = 4`). -/
theorem C1_blocks_partition_witness :
    (0 ≤ hw1.N ∧ hw1.N ≤ INT_MAX ∧ 1 ≤ hw1.N_THREADS ∧ int_mod hw1.N hw1.N_THREADS = 0) ∧
    PartitionOf (fun r => hw1.lo hw1.N hw1.N_THREADS r)
      (fun r => hw1.hi hw1.N hw1.N_THREADS r) hw1.N_THREADS hw1.N :=
  ⟨by decide,
    (C1_blocks_partition hw1.N hw1.N_THREADS (by decide) (by decide) (by decide)
      (by decide)).2.2.1.1⟩

/-- A rank whose range is empty leaves the memory as it is. -/
theorem cfor_mm_row_empty (n lo hi : Int) (s : MatMem) (h : hi ≤ lo) :
    cfor lo hi (mm_row n) s = s := by
  unfold cfor
  have : (hi - lo).toNat = 0 := by omega
  rw [this]
  rfl

theorem cfor_vec_step_empty (lo hi : Int) (s : VecMem) (h : hi ≤ lo) :
    cfor lo hi vec_step s = s := by
  unfold cfor
  have : (hi - lo).toNat = 0 := by omega
  rw [this]
  rfl

/-- C10: for `0 ≤ n` and `1 ≤ size`, with no divisibility assumed, the union over the
ranks `r ∈ [0, size)` of the ranges `[r*(n/size), r*(n/size) + n/size)` of `matrix_mult_mpi`
and `vector_add_mpi` is exactly `[0, size*(n/size))`, which is `[0, n - n % size)`: the last
`n % size` rows or elements are visited and written by no rank, and when `size > n` no
rank visits or writes any index. -/
theorem C10_blocks_cover_front (n size : Int) (hn : 0 ≤ n) (hn1 : n ≤ INT_MAX)
    (hs : 1 ≤ size) :
    PartitionOf (fun r => mpi_matrix_mult.start_row n r size)
      (fun r => mpi_matrix_mult.end_row n r size) size (size * int_div n size) ∧
    PartitionOf (fun r => mpi_vector_add.start n r size)
      (fun r => mpi_vector_add.end_ n r size) size (size * int_div n size) ∧
    size * int_div n size = n - int_mod n size ∧
    (∀ rank, 0 ≤ rank → rank < size → ∀ i, n - int_mod n size ≤ i →
      ¬ visits (mpi_matrix_mult.start_row n rank size) (mpi_matrix_mult.end_row n rank size) i ∧
      ¬ visits (mpi_vector_add.start n rank size) (mpi_vector_add.end_ n rank size) i ∧
      (∀ (s : MatMem) (j : Int), (matrix_mult_mpi s n rank size).C i j = s.C i j) ∧
      (∀ s : VecMem, (vector_add_mpi s n rank size).c i = s.c i)) ∧
    (n < size → ∀ rank, 0 ≤ rank → rank < size →
      (∀ i, ¬ visits (mpi_matrix_mult.start_row n rank size)
          (mpi_matrix_mult.end_row n rank size) i) ∧
      (∀ i, ¬ visits (mpi_vector_add.start n rank size) (mpi_vector_add.end_ n rank size) i) ∧
      (∀ s : MatMem, matrix_mult_mpi s n rank size = s) ∧
      (∀ s : VecMem, vector_add_mpi s n rank size = s)) := by
  have hq : int_div n size = n / size := (block_bounds hn hn1 hs (le_refl 0) (by omega)).1
  have hm : int_mod n size = n % size := int_mod_eq hn hn1 hs
  have hdm : size * (n / size) + n % size = n := Int.ediv_add_emod n size
  obtain ⟨h1, h2, _⟩ := blocks_tile hn hn1 hs
  rw [hq, hm]
  refine ⟨h1, h2, by omega, ?_, ?_⟩
  · intro rank hr0 hr i hi
    have hv1 : ¬ visits (mpi_matrix_mult.start_row n rank size)
        (mpi_matrix_mult.end_row n rank size) i := by
      intro hv
      have := (h1.2 i).mpr ⟨rank, hr0, hr, hv⟩
      omega
    have hv2 : ¬ visits (mpi_vector_add.start n rank size)
        (mpi_vector_add.end_ n rank size) i := by
      intro hv
      have := (h2.2 i).mpr ⟨rank, hr0, hr, hv⟩
      omega
    refine ⟨hv1, hv2, ?_, ?_⟩
    · intro s j
      unfold matrix_mult_mpi
      rw [cfor_mm_row]
      simp only [hv1, false_and, if_false]
    · intro s
      unfold vector_add_mpi
      rw [cfor_vec_step]
      simp only [hv2, if_false]
  · intro hlt rank hr0 hr
    have hz : n / size = 0 := Int.ediv_eq_zero_of_lt hn hlt
    have hb := block_bounds hn hn1 hs hr0 hr
    rw [hz] at hb
    have e1 : mpi_matrix_mult.start_row n rank size = 0 := by
      unfold mpi_matrix_mult.start_row mpi_matrix_mult.local_n
      rw [hb.2.1]; simp
    have e2 : mpi_matrix_mult.end_row n rank size = 0 := by
      unfold mpi_matrix_mult.end_row mpi_matrix_mult.start_row mpi_matrix_mult.local_n
      rw [hb.2.2.1]; simp
    have e3 : mpi_vector_add.start n rank size = 0 := e1
    have e4 : mpi_vector_add.end_ n rank size = 0 := e2
    refine ⟨?_, ?_, ?_, ?_⟩
    · intro i hv
      rw [e1, e2] at hv
      unfold visits at hv
      omega
    · intro i hv
      rw [e3, e4] at hv
      unfold visits at hv
      omega
    · intro s
      unfold matrix_mult_mpi
      exact cfor_mm_row_empty n _ _ s (by rw [e1, e2])
    · intro s
      unfold vector_add_mpi
      exact cfor_vec_step_empty _ _ s (by rw [e3, e4])

/-- C10 at `n = 10`, `size = 4`: the blocks cover `[0, 8)` and rows 8 and 9 are left out. -/
theorem C10_blocks_cover_front_witness :
    ((0 : Int) ≤ 10 ∧ (10 : Int) ≤ INT_MAX ∧ (1 : Int) ≤ 4) ∧
    PartitionOf (fun r => mpi_matrix_mult.start_row 10 r 4)
      (fun r => mpi_matrix_mult.end_row 10 r 4) 4 (4 * int_div 10 4) ∧
    (4 : Int) * int_div 10 4 = 10 - int_mod 10 4 :=
  ⟨by decide, (C10_blocks_cover_front 10 4 (by decide) (by decide) (by decide)).1,
    (C10_blocks_cover_front 10 4 (by decide) (by decide) (by decide)).2.2.1⟩

/-! ## Claims on the compute stage -/

/-- Closed form of `matrix_mult_mpi`: every cell of the rows visited by the rank, in the
columns `[0, n)`, receives the accumulated sum; nothing else changes. -/
theorem matrix_mult_mpi_eq (s : MatMem) (n rank size : Int) :
    matrix_mult_mpi s n rank size =
      { s with
        C := fun i j =>
          if visits (mpi_matrix_mult.start_row n rank size)
                (mpi_matrix_mult.end_row n rank size) i ∧ 0 ≤ j ∧ j < n then
            expected s n i j
          else s.C i j } := by
  unfold matrix_mult_mpi
  rw [cfor_mm_row]

/-- Closed form of `matrix_mult_serial`. -/
theorem matrix_mult_serial_eq (s : MatMem) (n : Int) :
    matrix_mult_serial s n =
      { s with C := fun i j =>
          if visits 0 n i ∧ 0 ≤ j ∧ j < n then expected s n i j else s.C i j } := by
  unfold matrix_mult_serial
  rw [cfor_mm_row]

/-- A row-block loop run twice gives what it gives run once. -/
theorem cfor_mm_row_idem (n lo hi : Int) (s : MatMem) :
    cfor lo hi (mm_row n) (cfor lo hi (mm_row n) s) = cfor lo hi (mm_row n) s := by
  rw [cfor_mm_row, cfor_mm_row]
  cases s with
  | mk A B C =>
    simp only [MatMem.mk.injEq, true_and]
    funext i j
    simp only [expected]
    by_cases h : visits lo hi i ∧ 0 ≤ j ∧ j < n
    · simp only [if_pos h]
    · simp only [if_neg h]

/-- C2: for `0 ≤ n`, `1 ≤ size` and `0 ≤ rank < size`, after
`matrix_mult_mpi(A, B, C, n, rank, size)` every `C[i][j]` with
`i ∈ [rank*(n/size), rank*(n/size) + n/size)` and `j ∈ [0, n)` equals the left-to-right
accumulation `(((0 + A[i][0]*B[0][j]) + A[i][1]*B[1][j]) + ... + A[i][n-1]*B[n-1][j])`,
whatever `C` held before the call. -/
theorem C2_matrix_mult_mpi_entries (A B C : Mat) (n rank size : Int) (hn : 0 ≤ n)
    (hn1 : n ≤ INT_MAX) (hs : 1 ≤ size) (hr0 : 0 ≤ rank) (hr : rank < size) (i j : Int)
    (hi0 : rank * int_div n size ≤ i) (hi1 : i < rank * int_div n size + int_div n size)
    (hj0 : 0 ≤ j) (hj1 : j < n) :
    (matrix_mult_mpi ⟨A, B, C⟩ n rank size).C i j = dotLeftToRight A B n i j := by
  have hb := row_block_c (n := n) ⟨by unfold INT_MIN; omega, hn1⟩ hs hr0 hr
  rw [matrix_mult_mpi_eq]
  have hv : visits (mpi_matrix_mult.start_row n rank size)
      (mpi_matrix_mult.end_row n rank size) i := by
    rw [hb.1, hb.2]
    exact ⟨hi0, hi1⟩
  simp only [if_pos (And.intro hv (And.intro hj0 hj1))]
  exact expected_eq_dot ⟨A, B, C⟩ n i j

/-- C2 at `n = 4`, `size = 2`, `rank = 1`, entry `(3, 1)`, on all-NaN matrices. -/
theorem C2_matrix_mult_mpi_entries_witness :
    (matrix_mult_mpi ⟨fun _ _ => F64.nan, fun _ _ => F64.nan, fun _ _ => F64.nan⟩ 4 1 2).C 3 1 =
      dotLeftToRight (fun _ _ => F64.nan) (fun _ _ => F64.nan) 4 3 1 :=
  C2_matrix_mult_mpi_entries _ _ _ 4 1 2 (by decide) (by decide) (by decide) (by decide)
    (by decide) 3 1 (by decide) (by decide) (by decide) (by decide)

/-- C3: for `0 ≤ n`, `1 ≤ size` and `n % size == 0`, the matrix assembled by taking each
row `i` from the output of `matrix_mult_mpi` run with `rank = i / (n/size)` equals, entry
for entry, the output of `matrix_mult_serial(A, B, C, n)`, whatever the output matrices
held before. -/
theorem C3_assembled_equals_serial (A B C1 C2 : Mat) (n size : Int) (hn : 0 ≤ n)
    (hn1 : n ≤ INT_MAX) (hs : 1 ≤ size) (hdiv : int_mod n size = 0) (i j : Int)
    (hi0 : 0 ≤ i) (hi1 : i < n) (hj0 : 0 ≤ j) (hj1 : j < n) :
    (matrix_mult_mpi ⟨A, B, C1⟩ n (int_div i (int_div n size)) size).C i j =
      (matrix_mult_serial ⟨A, B, C2⟩ n).C i j := by
  have hmod : n % size = 0 := by rw [← int_mod_eq hn hn1 hs]; exact hdiv
  have hM : size * (n / size) = n := by
    have := Int.ediv_add_emod n size
    omega
  have hq : int_div n size = n / size := (block_bounds hn hn1 hs (le_refl 0) (by omega)).1
  have hL0 : 0 ≤ n / size := Int.ediv_nonneg hn (by omega)
  have hL : 0 < n / size := by
    rcases eq_or_lt_of_le hL0 with h | h
    · rw [← h] at hM; simp at hM; omega
    · exact h
  have hLn : n / size ≤ n := by
    have : 1 * (n / size) ≤ size * (n / size) := Int.mul_le_mul_of_nonneg_right hs hL0
    omega
  have hr0 : 0 ≤ i / (n / size) := Int.ediv_nonneg hi0 hL0
  have hrle : i / (n / size) ≤ i := Int.ediv_le_self _ hi0
  have hrank : int_div i (int_div n size) = i / (n / size) := by
    rw [hq]
    unfold int_div
    rw [Int.tdiv_eq_ediv hi0 hL0]
    unfold INT_MAX at hn1
    exact wrap32_eq ⟨by unfold INT_MIN; omega, by unfold INT_MAX; omega⟩
  have hr : i / (n / size) < size := by
    apply Int.ediv_lt_of_lt_mul hL
    rw [hM]; exact hi1
  have hb := block_bounds hn hn1 hs hr0 hr
  have h1 : i / (n / size) * (n / size) ≤ i := Int.ediv_mul_le i (ne_of_gt hL)
  have h2 : i < (i / (n / size) + 1) * (n / size) := Int.lt_ediv_add_one_mul_self i hL
  have h3 : (i / (n / size) + 1) * (n / size) = i / (n / size) * (n / size) + n / size := by
    ring
  have hv : visits (mpi_matrix_mult.start_row n (i / (n / size)) size)
      (mpi_matrix_mult.end_row n (i / (n / size)) size) i := by
    unfold mpi_matrix_mult.end_row mpi_matrix_mult.start_row mpi_matrix_mult.local_n
    rw [hb.2.2.1, hb.2.1]
    unfold visits
    omega
  have hv0 : visits 0 n i := ⟨hi0, hi1⟩
  rw [hrank, matrix_mult_mpi_eq, matrix_mult_serial_eq]
  simp only [if_pos (And.intro hv (And.intro hj0 hj1)),
    if_pos (And.intro hv0 (And.intro hj0 hj1)), expected]

/-- C3 at the spec's example `n = 4`, `size = 2`, `A[i][j] = B[i][j] = i + j`, entry
`(3, 1)` (computed by rank `3 / (4/2) = 1`). -/
theorem C3_assembled_equals_serial_witness :
    (matrix_mult_mpi ⟨fun i j => F64.ofInt (i + j), fun i j => F64.ofInt (i + j),
        fun _ _ => F64.nan⟩ 4 (int_div 3 (int_div 4 2)) 2).C 3 1 =
      (matrix_mult_serial ⟨fun i j => F64.ofInt (i + j), fun i j => F64.ofInt (i + j),
        fun _ _ => F64.fin 0⟩ 4).C 3 1 :=
  C3_assembled_equals_serial _ _ _ _ 4 2 (by decide) (by decide) (by decide) (by decide) 3 1
    (by decide) (by decide) (by decide) (by decide)

/-- C6: running `matrix_mult_mpi` a second time on the unchanged `A` and `B` leaves `C`
(indeed the whole memory) exactly as the first run left it, for every `n`, `rank` and
`size`; the same holds for `matrix_mult_serial`. -/
theorem C6_compute_idempotent (s : MatMem) (n rank size : Int) :
    matrix_mult_mpi (matrix_mult_mpi s n rank size) n rank size =
      matrix_mult_mpi s n rank size ∧
    matrix_mult_serial (matrix_mult_serial s n) n = matrix_mult_serial s n := by
  unfold matrix_mult_mpi matrix_mult_serial
  exact ⟨cfor_mm_row_idem _ _ _ _, cfor_mm_row_idem _ _ _ _⟩

/-- C8: for every `int` `n`, `1 ≤ size` and `0 ≤ rank < size`, `matrix_mult_mpi` leaves
every entry of `A` and `B` unchanged and leaves `C[i][j]` unchanged for every row `i`
outside `[rank*(n/size), rank*(n/size) + n/size)`. -/
theorem C8_matrix_mult_mpi_frame (s : MatMem) (n rank size : Int) (hn : isInt32 n)
    (hs : 1 ≤ size) (hr0 : 0 ≤ rank) (hr : rank < size) :
    (matrix_mult_mpi s n rank size).A = s.A ∧
    (matrix_mult_mpi s n rank size).B = s.B ∧
    ∀ i j, ¬ (rank * int_div n size ≤ i ∧ i < rank * int_div n size + int_div n size) →
      (matrix_mult_mpi s n rank size).C i j = s.C i j := by
  have hb := row_block_c hn hs hr0 hr
  rw [matrix_mult_mpi_eq]
  refine ⟨rfl, rfl, ?_⟩
  intro i j hout
  have hv : ¬ visits (mpi_matrix_mult.start_row n rank size)
      (mpi_matrix_mult.end_row n rank size) i := by
    rw [hb.1, hb.2]
    exact hout
  simp only [hv, false_and, if_false]

/-- C8 at `n = 4`, `size = 2`, `rank = 1`: row 0 of `C` is not touched. -/
theorem C8_matrix_mult_mpi_frame_witness :
    (matrix_mult_mpi ⟨fun _ _ => F64.nan, fun _ _ => F64.nan, fun _ _ => F64.fin 7⟩ 4 1 2).C 0 0 =
      F64.fin 7 :=
  (C8_matrix_mult_mpi_frame ⟨fun _ _ => F64.nan, fun _ _ => F64.nan, fun _ _ => F64.fin 7⟩
    4 1 2 (by decide) (by decide) (by decide) (by decide)).2.2 0 0 (by decide)

/-! ## The chunk bounds of the pi kernels -/

/-- C9 at 22 threads or processes: for `thread_id = 21` the product `22 * NUM_STEPS`
exceeds `INT_MAX`; in 32-bit arithmetic the last chunk gets `start = 95454545` and
`end = -95225786`, so its end is not `NUM_STEPS` and lies below its start, and the step
index `99999999` lies in the chunk of no thread. -/
theorem C9_pi_chunks_overflow :
    pi.start 21 22 = 95454545 ∧ pi.end_ 21 22 = -95225786 ∧
    pi.end_ (22 - 1) 22 ≠ pi.NUM_STEPS ∧ ¬ (pi.start 21 22 ≤ pi.end_ 21 22) ∧
    ∀ t, 0 ≤ t → t < 22 → ¬ visits (pi.start t 22) (pi.end_ t 22) 99999999 := by
  refine ⟨by decide, by decide, by decide, by decide, ?_⟩
  intro t ht0 ht
  interval_cases t <;> decide

/-- Up to 21 threads or processes no product overflows: the chunks are contiguous, start
at 0 and end at `NUM_STEPS`. -/
theorem pi_chunks_contiguous (T t : Int) (hT : 1 ≤ T) (hT1 : T ≤ 21) (ht0 : 0 ≤ t)
    (ht : t < T) :
    pi.start 0 T = 0 ∧ pi.end_ (T - 1) T = pi.NUM_STEPS ∧
    pi.start t T ≤ pi.end_ t T ∧ pi.end_ t T = pi.start (t + 1) T ∧
    pi.start t T = t * pi.NUM_STEPS / T ∧ pi.end_ t T = (t + 1) * pi.NUM_STEPS / T := by
  interval_cases T <;> interval_cases t <;> decide

/-! ## The sampled verifier -/

theorem toInt32_zero : F64.toInt32 (F64.fin 0) = some 0 := by
  have ht : F64.trunc 0 = 0 := by simp [F64.trunc]
  simp only [F64.toInt32, ht]
  rw [if_pos (by decide)]

/-- A finite value tested against itself does not fire the test. -/
theorem mismatch_self_fin (q : ℚ) : mismatch (F64.fin q) (F64.fin q) = some false := by
  rw [mismatch_eq, F64.sub_self_fin, toInt32_zero]
  decide

/-- Accumulating products that are exact non-negative integers bounded by `Pmax` stays
exact as long as the running sum has at most 53 bits. -/
theorem forLoop_acc_int (A B : Mat) (i j n Pmax : Int) (hP : 0 ≤ Pmax)
    (hprod : ∀ k, 0 ≤ k → k < n →
      ∃ p : Int, 0 ≤ p ∧ p ≤ Pmax ∧ F64.mul (A i k) (B k j) = F64.fin (p : ℚ)) :
    ∀ (cnt : Nat) (k0 z : Int), 0 ≤ k0 → k0 + (cnt : Int) ≤ n → 0 ≤ z →
      z + (cnt : Int) * Pmax < 2 ^ 53 →
      ∃ z1 : Int, 0 ≤ z1 ∧
        forLoop (fun k e => F64.add e (F64.mul (A i k) (B k j))) cnt k0 (F64.fin (z : ℚ)) =
          F64.fin (z1 : ℚ) := by
  intro cnt
  induction cnt with
  | zero =>
    intro k0 z _ _ hz _
    exact ⟨z, hz, rfl⟩
  | succ cnt ih =>
    intro k0 z hk0 hkn hz hbound
    push_cast at hkn hbound
    obtain ⟨p, hp0, hpP, hmul⟩ := hprod k0 hk0 (by omega)
    have hc : 0 ≤ (cnt : Int) * Pmax := Int.mul_nonneg (Int.natCast_nonneg cnt) hP
    have hexp : ((cnt : Int) + 1) * Pmax = (cnt : Int) * Pmax + Pmax := by ring
    rw [hexp] at hbound
    have hsum : |z + p| < 2 ^ 53 := by
      rw [abs_of_nonneg (by omega)]
      omega
    rw [forLoop_succ, hmul, F64.add_int z p hsum]
    exact ih (k0 + 1) (z + p) (by omega) (by omega) (by omega) (by omega)

/-- On matrices filled by `initialize_matrix` the entries of the `N`-by-`N` block are the
exact integers `i + j`. -/
theorem initialize_matrix_entry (M : Mat) (n i j : Int) (hn : n ≤ 32768) (hi0 : 0 ≤ i)
    (hi : i < n) (hj0 : 0 ≤ j) (hj : j < n) :
    initialize_matrix M n i j = F64.fin ((i + j : Int) : ℚ) := by
  rw [initialize_matrix_eq, if_pos ⟨⟨hi0, hi⟩, hj0, hj⟩]
  have hw : int_add i j = i + j := by
    unfold int_add
    exact wrap32_eq ⟨by unfold INT_MIN; omega, by unfold INT_MAX; omega⟩
  rw [hw]
  apply F64.ofInt_exact
  rw [abs_of_nonneg (by omega)]
  omega

/-- With `A` and `B` filled by `initialize_matrix`, the sum recomputed by the verifier
is a finite value (an exact integer). -/
theorem expected_initialized (A0 B0 C : Mat) (n i j : Int) (hn : n ≤ 32768) (hi0 : 0 ≤ i)
    (hi : i < n) (hj0 : 0 ≤ j) (hj : j < n) :
    ∃ z : Int, expected ⟨initialize_matrix A0 n, initialize_matrix B0 n, C⟩ n i j =
      F64.fin (z : ℚ) := by
  have hprod : ∀ k, 0 ≤ k → k < n →
      ∃ p : Int, 0 ≤ p ∧ p ≤ 4294967296 ∧
        F64.mul (initialize_matrix A0 n i k) (initialize_matrix B0 n k j) = F64.fin (p : ℚ) := by
    intro k hk0 hk
    have h1 : (i + k) * (k + j) ≤ 65536 * 65536 :=
      Int.mul_le_mul (by omega) (by omega) (by omega) (by omega)
    refine ⟨(i + k) * (k + j), Int.mul_nonneg (by omega) (by omega), by omega, ?_⟩
    rw [initialize_matrix_entry A0 n i k hn hi0 hi hk0 hk,
      initialize_matrix_entry B0 n k j hn hk0 hk hj0 hj]
    exact F64.mul_int _ _ (by omega) (by omega) (by omega)
  unfold expected cfor
  have hcnt : ((n - 0).toNat : Int) = n := by omega
  obtain ⟨z, _, hz⟩ := forLoop_acc_int (initialize_matrix A0 n) (initialize_matrix B0 n) i j n
    4294967296 (by norm_num) hprod (n - 0).toNat 0 0 (le_refl 0) (by omega) (le_refl 0)
    (by rw [hcnt]; omega)
  refine ⟨z, ?_⟩
  have h0 : F64.fin (((0 : Int) : ℚ)) = F64.fin 0 := by norm_num
  rw [← h0]
  exact hz

/-- The compute stage alone: with `N = 1000`, `A` and `B` filled by `initialize_matrix`,
and `size ≥ 1` with `N/size ≥ 10`, the verifier loop run on the memory that
`matrix_mult_mpi(A, B, C, N, 0, size)` leaves, with no gather in between, ends with
`correct = 1`. -/
theorem compute_then_verify_yes (A0 B0 C0 : Mat) (size : Int) (hs : 1 ≤ size)
    (h10 : 10 ≤ int_div mpi_matrix_mult.N size) :
    verify (matrix_mult_mpi ⟨initialize_matrix A0 mpi_matrix_mult.N,
        initialize_matrix B0 mpi_matrix_mult.N, C0⟩ mpi_matrix_mult.N 0 size)
      mpi_matrix_mult.N = some true := by
  have hb := row_block_c (n := mpi_matrix_mult.N) (by decide) hs (le_refl 0) (by omega)
  rw [verify_true_iff]
  intro i hi0 hi1 j hj0 hj1
  have hN : mpi_matrix_mult.N = 1000 := rfl
  have hv : visits (mpi_matrix_mult.start_row mpi_matrix_mult.N 0 size)
      (mpi_matrix_mult.end_row mpi_matrix_mult.N 0 size) i := by
    rw [hb.1, hb.2]
    unfold visits
    omega
  obtain ⟨z, hz⟩ := expected_initialized A0 B0 C0 mpi_matrix_mult.N i j (by decide) hi0
    (by omega) hj0 (by omega)
  rw [matrix_mult_mpi_eq]
  simp only [if_pos (And.intro hv (And.intro hj0 (by omega : j < mpi_matrix_mult.N)))]
  have he : expected
      { A := initialize_matrix A0 mpi_matrix_mult.N, B := initialize_matrix B0 mpi_matrix_mult.N,
        C := fun i j =>
          if visits (mpi_matrix_mult.start_row mpi_matrix_mult.N 0 size)
              (mpi_matrix_mult.end_row mpi_matrix_mult.N 0 size) i ∧ 0 ≤ j ∧
              j < mpi_matrix_mult.N then
            expected ⟨initialize_matrix A0 mpi_matrix_mult.N,
              initialize_matrix B0 mpi_matrix_mult.N, C0⟩ mpi_matrix_mult.N i j
          else C0 i j } mpi_matrix_mult.N i j =
      expected ⟨initialize_matrix A0 mpi_matrix_mult.N,
        initialize_matrix B0 mpi_matrix_mult.N, C0⟩ mpi_matrix_mult.N i j := rfl
  rw [he, hz]
  exact mismatch_self_fin _

/-- C7 at four processes, the scenario `N = 1000`, `P = 4`: on rank 0 `main` runs the
gather loop between `matrix_mult_mpi` and the verifier. Its `N/4 = 250` calls use the rows
`C[0], ..., C[249]`, the ten sampled rows among them, as receive buffers. A row holds
`1000` doubles, but the root stores the blocks of all four ranks there: element 0 of the
block of rank 1 goes to index `1000`, past the end of the row. The same holds for every
`size ≥ 2`, so the memory that the verifier reads is not the one the compute stage left. -/
theorem C7_gather_overruns_rows :
    int_div mpi_matrix_mult.N 4 = 250 ∧
    (∀ i, 0 ≤ i → i < 10 →
      visits 0 (int_div mpi_matrix_mult.N 4) i ∧ mpi_matrix_mult.gather_row 0 4 i = i) ∧
    mpi_matrix_mult.row_doubles mpi_matrix_mult.N = 1000 ∧
    mpi_matrix_mult.gather_store_index mpi_matrix_mult.N 1 0 = 1000 ∧
    ¬ mpi_matrix_mult.gather_in_bounds 4 ∧
    (∀ size, 2 ≤ size → ¬ mpi_matrix_mult.gather_in_bounds size) := by
  have hover : ∀ size : Int, 2 ≤ size → ¬ mpi_matrix_mult.gather_in_bounds size := by
    intro size hsize h
    have h1 := h 1 0 (by omega) (by omega) (le_refl 0) (by decide)
    unfold mpi_matrix_mult.gather_store_index mpi_matrix_mult.row_doubles
      mpi_matrix_mult.N at h1
    omega
  refine ⟨by decide, ?_, by decide, by decide, hover 4 (by omega), hover⟩
  intro i hi0 hi1
  interval_cases i <;> decide

theorem forLoop_acc_zero (cnt : Nat) (k0 : Int) :
    forLoop (fun k e => F64.add e (F64.mul (zeroMat 0 k) (zeroMat k 0))) cnt k0 (F64.fin 0) =
      F64.fin 0 := by
  induction cnt generalizing k0 with
  | zero => rfl
  | succ cnt ih =>
    rw [forLoop_succ]
    have : F64.add (F64.fin 0) (F64.mul (zeroMat 0 k0) (zeroMat k0 0)) = F64.fin 0 := by
      simp [zeroMat, F64.mul, F64.isZero, F64.signBit, F64.add, F64.round]
    rw [this]
    exact ih (k0 + 1)

/-- On all-zero inputs the verifier recomputes `0.0` at every entry. -/
theorem expected_halfOff (N i j : Int) : expected halfOffMem N i j = F64.fin 0 := by
  unfold expected cfor
  exact forLoop_acc_zero _ _

/-- C5, the verifier at an input with a sampled entry off by 0.5: `A` and `B` all zero
and `C[0][0] = 0.5`. The true absolute difference `fabs(C[0][0] - expected)` exceeds
`1e-6`, yet the loop ends with `correct = 1` ("Yes"), because `abs` converts `0.5` to the
`int` 0. -/
theorem C5_verifier_accepts_half_off :
    verify halfOffMem mpi_matrix_mult.N = some true ∧
    expected halfOffMem mpi_matrix_mult.N 0 0 = F64.fin 0 ∧
    halfOffMem.C 0 0 = F64.fin (1 / 2) ∧
    F64.gt (F64.fabs (F64.sub (halfOffMem.C 0 0)
      (dotLeftToRight halfOffMem.A halfOffMem.B mpi_matrix_mult.N 0 0))) tol = true := by
  have hC00 : halfOffMem.C 0 0 = F64.fin (1 / 2) := by simp [halfOffMem, Mat.set]
  have hsub : F64.sub (F64.fin (1 / 2)) (F64.fin 0) = F64.fin (1 / 2) := by
    simp [F64.sub, F64.neg, F64.add]
  refine ⟨?_, expected_halfOff _ 0 0, hC00, ?_⟩
  · rw [verify_true_iff]
    intro i hi0 hi1 j hj0 hj1
    rw [expected_halfOff]
    by_cases h00 : i = 0 ∧ j = 0
    · rw [h00.1, h00.2, hC00, mismatch_eq, hsub]
      have ht : F64.trunc (1 / 2) = 0 := by
        unfold F64.trunc
        rw [if_pos (by norm_num), Int.floor_eq_iff]
        constructor <;> norm_num
      simp only [F64.toInt32, ht]
      rw [if_pos (by decide)]
      decide
    · have : halfOffMem.C i j = F64.fin 0 := by
        simp only [halfOffMem, Mat.set, zeroMat]
        rw [if_neg h00]
      rw [this]
      exact mismatch_self_fin 0
  · rw [← expected_eq_dot, expected_halfOff, hC00, hsub, tol_eq]
    simp only [F64.fabs, F64.gt, F64.val]
    rw [decide_eq_true_eq, abs_of_pos (by norm_num)]
    norm_num

/-! ## Vector addition -/

/-- The check loop ends with `correct = 1` exactly when `c[i] != a[i] + b[i]` is false at
every index of its range. -/
theorem vec_check_true (s : VecMem) (f : Nat) (i0 : Int) :
    vec_check s f i0 = true ↔
      ∀ i, i0 ≤ i → i < i0 + (f : Int) → F64.ne (s.c i) (F64.add (s.a i) (s.b i)) = false := by
  induction f generalizing i0 with
  | zero =>
    simp only [vec_check, Nat.cast_zero, add_zero, true_iff]
    intro i h1 h2
    omega
  | succ f ih =>
    have hin : i0 < i0 + ((f + 1 : Nat) : Int) := by push_cast; omega
    unfold vec_check
    by_cases hne : F64.ne (s.c i0) (F64.add (s.a i0) (s.b i0)) = true
    · rw [if_pos hne]
      constructor
      · intro h; cases h
      · intro h
        have := h i0 (le_refl _) hin
        rw [hne] at this
        cases this
    · rw [if_neg hne, ih]
      constructor
      · intro h i h1 h2
        by_cases hi : i = i0
        · rw [hi]; simpa using hne
        · exact h i (by omega) (by push_cast at h2; omega)
      · intro h i h1 h2
        exact h i (by omega) (by push_cast; omega)

theorem ne_self_fin (q : ℚ) : F64.ne (F64.fin q) (F64.fin q) = false := by
  simp [F64.ne]

/-- The sum `i + 2*i` of the initialisation pattern is exact. -/
theorem add_pattern (i : Int) (hi0 : 0 ≤ i) (hi : i ≤ INT_MAX) :
    F64.ofInt i = F64.fin (i : ℚ) ∧ F64.ofInt (2 * i) = F64.fin ((2 * i : Int) : ℚ) ∧
    F64.ofInt (3 * i) = F64.fin ((3 * i : Int) : ℚ) ∧
    F64.add (F64.ofInt i) (F64.ofInt (2 * i)) = F64.ofInt (3 * i) := by
  unfold INT_MAX at hi
  have h1 : F64.ofInt i = F64.fin (i : ℚ) :=
    F64.ofInt_exact i (by rw [abs_of_nonneg hi0]; omega)
  have h2 : F64.ofInt (2 * i) = F64.fin ((2 * i : Int) : ℚ) :=
    F64.ofInt_exact (2 * i) (by rw [abs_of_nonneg (by omega)]; omega)
  have h3 : F64.ofInt (3 * i) = F64.fin ((3 * i : Int) : ℚ) :=
    F64.ofInt_exact (3 * i) (by rw [abs_of_nonneg (by omega)]; omega)
  refine ⟨h1, h2, h3, ?_⟩
  rw [h1, h2, h3, F64.add_int i (2 * i) (by rw [abs_of_nonneg (by omega)]; omega)]
  congr 2
  ring

/-- C4: for `0 ≤ n` and vectors with `a[i] = i`, `b[i] = 2*i` on `[0, n)`: after
`vector_add_serial(a, b, c, n)`, and likewise after `vector_add_mpi` has been run for every
rank `0..size-1` on the same `c` with `n % size == 0`, every `c[i]` with `i ∈ [0, n)` is
`a[i] + b[i]`, which is `3*i`, the comparison `c[i] != a[i] + b[i]` is false, and the
full-array check loop ends with `correct = 1` ("Yes"). -/
theorem C4_vector_add_correct (s : VecMem) (n size : Int) (hn : 0 ≤ n) (hn1 : n ≤ INT_MAX)
    (hs : 1 ≤ size) (hdiv : int_mod n size = 0)
    (ha : ∀ i, 0 ≤ i → i < n → s.a i = F64.ofInt i)
    (hb : ∀ i, 0 ≤ i → i < n → s.b i = F64.ofInt (2 * i)) :
    ((∀ i, 0 ≤ i → i < n →
        (vector_add_serial s n).c i = F64.add (s.a i) (s.b i) ∧
        (vector_add_serial s n).c i = F64.ofInt (3 * i) ∧
        F64.ne ((vector_add_serial s n).c i)
          (F64.add ((vector_add_serial s n).a i) ((vector_add_serial s n).b i)) = false) ∧
      vec_verify (vector_add_serial s n) n = true) ∧
    ((∀ i, 0 ≤ i → i < n →
        (vector_add_mpi_all s n size).c i = F64.add (s.a i) (s.b i) ∧
        (vector_add_mpi_all s n size).c i = F64.ofInt (3 * i) ∧
        F64.ne ((vector_add_mpi_all s n size).c i)
          (F64.add ((vector_add_mpi_all s n size).a i) ((vector_add_mpi_all s n size).b i)) =
            false) ∧
      vec_verify (vector_add_mpi_all s n size) n = true) := by
  have hcnt : ∀ i : Int, i < 0 + ((n.toNat : Nat) : Int) ↔ i < n := by
    intro i; omega
  -- what is needed of a final memory to obtain all four facts
  have key : ∀ t : VecMem, t.a = s.a → t.b = s.b →
      (∀ i, 0 ≤ i → i < n → t.c i = F64.add (s.a i) (s.b i)) →
      (∀ i, 0 ≤ i → i < n →
        t.c i = F64.add (s.a i) (s.b i) ∧ t.c i = F64.ofInt (3 * i) ∧
        F64.ne (t.c i) (F64.add (t.a i) (t.b i)) = false) ∧
      vec_verify t n = true := by
    intro t hta htb htc
    have hall : ∀ i, 0 ≤ i → i < n →
        t.c i = F64.add (s.a i) (s.b i) ∧ t.c i = F64.ofInt (3 * i) ∧
        F64.ne (t.c i) (F64.add (t.a i) (t.b i)) = false := by
      intro i hi0 hi
      have hp := add_pattern i hi0 (by omega)
      have hc : t.c i = F64.ofInt (3 * i) := by
        rw [htc i hi0 hi, ha i hi0 hi, hb i hi0 hi]
        exact hp.2.2.2
      refine ⟨htc i hi0 hi, hc, ?_⟩
      rw [hta, htb, ← htc i hi0 hi, hc, hp.2.2.1]
      exact ne_self_fin _
    refine ⟨hall, ?_⟩
    unfold vec_verify
    rw [vec_check_true]
    intro i hi0 hi
    exact (hall i hi0 ((hcnt i).mp hi)).2.2
  constructor
  · apply key
    · unfold vector_add_serial; rw [cfor_vec_step]
    · unfold vector_add_serial; rw [cfor_vec_step]
    · intro i hi0 hi
      unfold vector_add_serial
      rw [cfor_vec_step]
      have hv : visits 0 n i := ⟨hi0, hi⟩
      simp only [if_pos hv]
  · obtain ⟨hA, hB, hC⟩ := forLoop_all_ranks n size (size - 0).toNat 0 s
    apply key
    · exact hA
    · exact hB
    · intro i hi0 hi
      have hpart := (vec_blocks_partition n size hn hn1 hs hdiv).2
      obtain ⟨r, hr0, hr, hv⟩ := (hpart i).mp ⟨hi0, hi⟩
      exact (hC i).1 ⟨r, hr0, by omega, hv⟩

/-- The initialisation loop from `i0`: `a[i] = i` and `b[i] = i * 2` on the indices
`i0, ..., i0 + cnt - 1`. -/
theorem forLoop_vec_init (cnt : Nat) (i0 : Int) (t : VecMem) :
    forLoop (fun i s1 =>
        { s1 with a := s1.a.set i (F64.ofInt i), b := s1.b.set i (F64.ofInt (int_mul i 2)) })
      cnt i0 t =
      { t with
        a := fun i => if i0 ≤ i ∧ i < i0 + (cnt : Int) then F64.ofInt i else t.a i
        b := fun i =>
          if i0 ≤ i ∧ i < i0 + (cnt : Int) then F64.ofInt (int_mul i 2) else t.b i } := by
  induction cnt generalizing i0 t with
  | zero =>
    simp only [forLoop]
    cases t
    simp only [VecMem.mk.injEq, and_true]
    constructor <;>
    · funext i
      rw [if_neg]
      simp only [Nat.cast_zero, add_zero]
      omega
  | succ cnt ih =>
    rw [forLoop_succ, ih]
    cases t with
    | mk a b c =>
      simp only [VecMem.mk.injEq, and_true]
      constructor <;>
      · funext i
        simp only [Vec.set]
        by_cases h1 : i0 + 1 ≤ i ∧ i < i0 + 1 + (cnt : Int)
        · rw [if_pos h1, if_pos]
          push_cast
          omega
        · rw [if_neg h1]
          by_cases h2 : i = i0
          · rw [if_pos h2, if_pos, h2]
            push_cast
            omega
          · rw [if_neg h2, if_neg]
            push_cast
            omega

/-- After the initialisation loop of `main`, `a[i] = i` and `b[i] = 2*i` on `[0, N)`, as
long as `2*N` does not overflow. -/
theorem vec_init_pattern (s : VecMem) (N : Int) (hN : 2 * N ≤ INT_MAX) (i : Int)
    (hi0 : 0 ≤ i) (hi : i < N) :
    (vec_init s N).a i = F64.ofInt i ∧ (vec_init s N).b i = F64.ofInt (2 * i) := by
  unfold vec_init cfor
  rw [forLoop_vec_init]
  have hin : 0 ≤ i ∧ i < 0 + (((N - 0).toNat : Nat) : Int) := by omega
  simp only [if_pos hin]
  have hw : int_mul i 2 = 2 * i := by
    unfold int_mul
    rw [wrap32_eq ⟨by unfold INT_MIN; omega, by unfold INT_MAX at hN ⊢; omega⟩]
    ring
  rw [hw]
  simp

/-- C4 at the program's own data: `N = 1000000`, vectors filled by the initialisation
loop of `main`, four processes. Both check loops report "Yes". -/
theorem C4_vector_add_correct_witness :
    ((0 : Int) ≤ mpi_vector_add.N ∧ mpi_vector_add.N ≤ INT_MAX ∧ (1 : Int) ≤ 4 ∧
      int_mod mpi_vector_add.N 4 = 0) ∧
    vec_verify (vector_add_serial
      (vec_init ⟨fun _ => F64.nan, fun _ => F64.nan, fun _ => F64.nan⟩ mpi_vector_add.N)
      mpi_vector_add.N) mpi_vector_add.N = true ∧
    vec_verify (vector_add_mpi_all
      (vec_init ⟨fun _ => F64.nan, fun _ => F64.nan, fun _ => F64.nan⟩ mpi_vector_add.N)
      mpi_vector_add.N 4) mpi_vector_add.N = true :=
  ⟨by decide,
    (C4_vector_add_correct
      (vec_init ⟨fun _ => F64.nan, fun _ => F64.nan, fun _ => F64.nan⟩ mpi_vector_add.N)
      mpi_vector_add.N 4 (by decide) (by decide) (by decide) (by decide)
      (fun i hi0 hi => (vec_init_pattern _ mpi_vector_add.N (by decide) i hi0 hi).1)
      (fun i hi0 hi => (vec_init_pattern _ mpi_vector_add.N (by decide) i hi0 hi).2)).1.2,
    (C4_vector_add_correct
      (vec_init ⟨fun _ => F64.nan, fun _ => F64.nan, fun _ => F64.nan⟩ mpi_vector_add.N)
      mpi_vector_add.N 4 (by decide) (by decide) (by decide) (by decide)
      (fun i hi0 hi => (vec_init_pattern _ mpi_vector_add.N (by decide) i hi0 hi).1)
      (fun i hi0 hi => (vec_init_pattern _ mpi_vector_add.N (by decide) i hi0 hi).2)).2.2⟩

end CSYE7105
